import Mathlib

/-
Verification development for the groot repository: a proactive verifier of
authoritative DNS configurations.  The Python sources are shallowly embedded:
pure functions become Lean functions, dict-based state becomes association
lists (which model the insertion-ordered dictionaries of Python), Python sets
are modelled as duplicate-free lists in insertion order, and the worklist
loops of the symbolic executors are embedded with an explicit fuel parameter
(termination of a loop is then the theorem that some fuel suffices).

String operations are implemented structurally over the character list of a
string so that all definitions evaluate inside the kernel; each mirrors the
corresponding Python string method.
-/

namespace PyStr

/-- Builds a string back from its character list. -/
def ofChars (l : List Char) : String := ⟨l⟩

/-- Python s.endswith(t). -/
def endsWithPy (s t : String) : Bool := t.data.isSuffixOf s.data

/-- Helper for splitDot: splits a character list at every dot, keeping empty
pieces, exactly like Python str.split with a one-character separator. -/
def splitDotAux : List Char → List (List Char)
  | [] => [[]]
  | c :: rest =>
    let r := splitDotAux rest
    if c = '.' then [] :: r
    else
      match r with
      | h :: t => (c :: h) :: t
      | [] => [[c]]

/-- Python s.split(".").  The empty string yields [""] as in Python. -/
def splitDot (s : String) : List String := (splitDotAux s.data).map ofChars

/-- Python s[:n] for n at most len(s): the first n characters. -/
def takePy (s : String) (n : Nat) : String := ofChars (s.data.take n)

/-- Python len(s): number of characters. -/
def lenPy (s : String) : Nat := s.data.length

/-- Python s[:-1]: drop the last character. -/
def dropLastPy (s : String) : String := ofChars s.data.dropLast

/-- Python s[2:]: drop the first two characters. -/
def dropTwoPy (s : String) : String := ofChars (s.data.drop 2)

/-- Python s.rstrip("."): remove all trailing dots. -/
def rstripDotPy (s : String) : String :=
  ofChars ((s.data.reverse.dropWhile (fun c => c = '.')).reverse)

/-- Python string comparison a < b (lexicographic on code points). -/
def strLtAux : List Char → List Char → Bool
  | [], [] => false
  | [], _ :: _ => true
  | _ :: _, [] => false
  | a :: as, b :: bs => if a < b then true else if b < a then false else strLtAux as bs

/-- Python a < b on strings. -/
def strLt (a b : String) : Bool := strLtAux a.data b.data

/-- Inserts a string into an already sorted list (ascending). -/
def insSorted (x : String) : List String → List String
  | [] => [x]
  | y :: ys => if strLt y x then y :: insSorted x ys else x :: y :: ys

/-- Python sorted(l) for lists of strings: ascending lexicographic order. -/
def sortedPy (l : List String) : List String := l.foldr insSorted []

/-- Python s.lower() restricted to ASCII letters, which is all the sources use. -/
def toLowerPy (s : String) : String :=
  ofChars (s.data.map (fun c => if 'A' ≤ c ∧ c ≤ 'Z' then Char.ofNat (c.toNat + 32) else c))

/-- Python s.upper() restricted to ASCII letters. -/
def toUpperPy (s : String) : String :=
  ofChars (s.data.map (fun c => if 'a' ≤ c ∧ c ≤ 'z' then Char.ofNat (c.toNat - 32) else c))

/-- Python s.strip(): remove surrounding whitespace. -/
def trimPy (s : String) : String :=
  ofChars (((s.data.dropWhile Char.isWhitespace).reverse.dropWhile Char.isWhitespace).reverse)

end PyStr

/- Association lists model the insertion-ordered dictionaries of Python:
lookup returns the first binding, updating an existing key keeps its
position, and a fresh key is appended at the end. -/

/-- Dictionary lookup: d.get(k): the first binding of the key. -/
def alGet {κ β : Type} [DecidableEq κ] : List (κ × β) → κ → Option β
  | [], _ => none
  | p :: rest, k => if p.1 = k then some p.2 else alGet rest k

/-- Dictionary assignment d[k] = v (position of an existing key is kept). -/
def alSet {κ β : Type} [DecidableEq κ] (m : List (κ × β)) (k : κ) (v : β) : List (κ × β) :=
  match m with
  | [] => [(k, v)]
  | (k', v') :: rest => if k' = k then (k, v) :: rest else (k', v') :: alSet rest k v

/-- Dictionary update d[k] = f(d.get(k, dflt)), as used for the
if-missing-insert-then-mutate idiom of the sources. -/
def alModify {κ β : Type} [DecidableEq κ] (m : List (κ × β)) (k : κ) (f : β → β) (dflt : β) :
    List (κ × β) :=
  match m with
  | [] => [(k, f dflt)]
  | (k', v') :: rest => if k' = k then (k', f v') :: rest else (k', v') :: alModify rest k f dflt

/-- Python set.add on the insertion-ordered list model of a set. -/
def listInsert {α : Type} [DecidableEq α] (l : List α) (x : α) : List α :=
  if x ∈ l then l else l ++ [x]

/-- Python set equality for the list model of sets. -/
def listSetEq {α : Type} [DecidableEq α] (a b : List α) : Bool :=
  a.all (fun x => x ∈ b) && b.all (fun x => x ∈ a)

namespace GrootV1

/- Embedding of src/Groot_v1: the data_structure TypedDicts and the pipeline
steps cited by the claims.  Domains are plain dot-terminated strings here,
exactly as in the Python code. -/

/-- data_structure.dns_entities.ResourceRecord (the class_ field is constant
"IN" in all sources and is omitted). -/
structure RR where
  name : String
  ttl : Nat
  type : String
  rdata : String
deriving DecidableEq, Repr

/-- data_structure.dns_entities.Zone. -/
structure Zone where
  origin : String
  records : List RR
deriving DecidableEq, Repr

/-- Appends a trailing dot when missing, the normalization idiom of step4. -/
def ensureDot (s : String) : String := if PyStr.endsWithPy s "." then s else s ++ "."

/-- The nested records_map dictionary of symbolic_server_lookup:
owner name, then record type, then the list of records in zone order. -/
def recordsMapAdd (m : List (String × List (String × List RR))) (r : RR) :
    List (String × List (String × List RR)) :=
  alModify m (ensureDot r.name) (fun inner => alModify inner r.type (fun l => l ++ [r]) []) []

/-- Step 0 of symbolic_server_lookup: preprocess the zone records. -/
def records_map (z : Zone) : List (String × List (String × List RR)) :=
  z.records.foldl recordsMapAdd []

/-- The labels of the normalized query: [l for l in q_norm.split(".") if l]. -/
def qLabels (qn : String) : List String := (PyStr.splitDot qn).filter (fun l => l ≠ "")

/-- The candidate ancestor names scanned by the closest-encloser loop:
".".join(q_labels[i:]) + "." for i = 1 .. len(q_labels). -/
def ceCandidates (ls : List String) : List String :=
  (List.range ls.length).map (fun i => String.intercalate "." (ls.drop (i + 1)) ++ ".")

/-- The closest-encloser scan: stop (break) when the candidate leaves the zone,
succeed on the first owned candidate. -/
def ceScan (m : List (String × List (String × List RR))) (zo : String) :
    List String → Option String
  | [] => none
  | s :: rest =>
    if PyStr.lenPy s < PyStr.lenPy zo || !(PyStr.endsWithPy s zo) then none
    else if (alGet m s).isSome then some s
    else ceScan m zo rest

/-- Step 1 of symbolic_server_lookup: find the closest encloser, defaulting to
the zone origin. -/
def closestEncloser (m : List (String × List (String × List RR))) (qn zo : String) : String :=
  if (alGet m qn).isSome then qn
  else (ceScan m zo (ceCandidates (qLabels qn))).getD zo

/-- The grouping key of step 2: (outcome_type, outcome_targets, outcome_new_query). -/
structure OutcomeKey where
  otype : String
  targets : List String
  newq : String
deriving DecidableEq, Repr

/-- The answer dictionary of a result group; target_servers is present exactly
for REF and new_query exactly for ANSQ, as in the source. -/
structure Answer where
  type : String
  target_servers : Option (List String)
  new_query : Option String
deriving DecidableEq, Repr

/-- One result group of symbolic_server_lookup. -/
structure OutcomeGroup where
  types : List String
  answer : Answer
  records : List RR
deriving DecidableEq, Repr

/-- The per-type outcome computation inside the loop of step 2 of
symbolic_server_lookup (is_delegation and has_dname are computed from the
rrset of the closest encloser before the loop, as in the source). -/
def outcomeForType (rm : List (String × List (String × List RR))) (ce qn : String)
    (rrset : List (String × List RR)) (isDeleg hasDname : Bool) (t : String) :
    OutcomeKey × List RR :=
  if ce = qn then
    -- Exact match
    if isDeleg then
      let nsRecords := (alGet rrset "NS").getD []
      (⟨"REF", PyStr.sortedPy (nsRecords.map (·.rdata)), ""⟩, nsRecords)
    else if (alGet rrset "CNAME").isSome && t ≠ "CNAME" then
      let cnameRecords := (alGet rrset "CNAME").getD []
      let target := ((cnameRecords.head?).map (·.rdata)).getD ""
      (⟨"ANSQ", [], ensureDot target⟩, cnameRecords)
    else if (alGet rrset t).isSome then
      (⟨"ANS", [], ""⟩, (alGet rrset t).getD [])
    else
      (⟨"ANS", [], ""⟩, [])
  else
    -- Ancestor match
    if hasDname then
      let dnameRecords := (alGet rrset "DNAME").getD []
      let target := ensureDot (((dnameRecords.head?).map (·.rdata)).getD "")
      let pre := PyStr.takePy qn (PyStr.lenPy qn - PyStr.lenPy ce)
      (⟨"ANSQ", [], pre ++ target⟩, dnameRecords)
    else if isDeleg then
      let nsRecords := (alGet rrset "NS").getD []
      (⟨"REF", PyStr.sortedPy (nsRecords.map (·.rdata)), ""⟩, nsRecords)
    else
      match alGet rm ("*." ++ ce) with
      | some wrrset =>
        if (alGet wrrset "CNAME").isSome && t ≠ "CNAME" then
          let cnameRecords := (alGet wrrset "CNAME").getD []
          let target := ((cnameRecords.head?).map (·.rdata)).getD ""
          (⟨"ANSQ", [], ensureDot target⟩, cnameRecords)
        else if (alGet wrrset t).isSome then
          (⟨"ANS", [], ""⟩, (alGet wrrset t).getD [])
        else
          (⟨"ANS", [], ""⟩, [])
      | none => (⟨"NX", [], ""⟩, [])

/-- Accumulates one type into the insertion-ordered outcomes dictionary. -/
def insertOutcome (acc : List (OutcomeKey × (List String × List RR))) (k : OutcomeKey)
    (t : String) (used : List RR) : List (OutcomeKey × (List String × List RR)) :=
  match acc with
  | [] => [(k, ([t], used))]
  | (k', (ts, rs)) :: rest =>
    if k' = k then (k', (ts ++ [t], rs ++ used)) :: rest
    else (k', (ts, rs)) :: insertOutcome rest k t used

/-- step4_Symbolic_Execution.symbolic_server_lookup: the single-server symbolic
answer function. -/
def symbolic_server_lookup (zone : Zone) (query : String) (types : List String) :
    List OutcomeGroup :=
  let rm := records_map zone
  let qn := ensureDot query
  let zo := ensureDot zone.origin
  let ce := closestEncloser rm qn zo
  let rrset := (alGet rm ce).getD []
  let hasDname := (alGet rrset "DNAME").isSome
  let hasNs := (alGet rrset "NS").isSome
  let hasSoa := (alGet rrset "SOA").isSome
  let isDeleg := hasNs && !hasSoa
  let groups := types.foldl (fun acc t =>
    let r := outcomeForType rm ce qn rrset isDeleg hasDname t
    insertOutcome acc r.1 t r.2) []
  groups.map (fun g =>
    { types := g.2.1
      answer :=
        { type := g.1.otype
          target_servers := if g.1.otype = "REF" then some g.1.targets else none
          new_query := if g.1.otype = "ANSQ" then some g.1.newq else none }
      records := g.2.2 })

end GrootV1

namespace GrootV1

/- Embedding of src/Groot_v1/code/step3_Equivalence_Class_EC_Generation.py and
the data_structure.label_graph TypedDicts. -/

/-- data_structure.label_graph.LabelGraphNode. -/
structure LabelGraphNode where
  id : String
  label : String
  is_wildcard : Bool
deriving DecidableEq, Repr

/-- data_structure.label_graph.LabelGraphEdge. -/
structure LabelGraphEdge where
  source_id : String
  target_id : String
  edge_type : String
deriving DecidableEq, Repr

/-- data_structure.label_graph.LabelGraph (the nodes dictionary keyed by id). -/
structure LabelGraph where
  nodes : List (String × LabelGraphNode)
  edges : List LabelGraphEdge
deriving DecidableEq, Repr

/-- data_structure.equivalence_class.EquivalenceClass.  The source renders the
identifier as the string "EC_n"; the embedding keeps the counter n itself. -/
structure EquivalenceClass where
  ec_id : Nat
  domain_sequence : List String
  query_types : List String
deriving DecidableEq, Repr

/-- step3.MAX_DNS_LENGTH. -/
def MAX_DNS_LENGTH : Nat := 20

/-- step3.SUPPORTED_QUERY_TYPES. -/
def SUPPORTED_QUERY_TYPES : List String := ["A", "AAAA", "NS", "MX", "TXT", "CNAME", "SOA"]

/-- A path element of the DFS: a plain label, or the alpha element carrying its
excluded sibling labels (the dict with label "alpha" in the source). -/
inductive PathSeg where
  | lab (s : String)
  | alpha (constraints : List String)
deriving DecidableEq, Repr

/-- One DFS stack entry: node id, current path, per-branch visit history. -/
structure TravState where
  node : String
  path : List PathSeg
  history : List (String × Nat)
deriving DecidableEq, Repr

/-- The children_map preprocessing of generate_equivalence_classes. -/
def buildChildrenMap (edges : List LabelGraphEdge) : List (String × List String) :=
  edges.foldl (fun m e =>
    if e.edge_type = "child" then alModify m e.source_id (fun l => l ++ [e.target_id]) []
    else m) []

/-- The dname_map preprocessing of generate_equivalence_classes. -/
def buildDnameMap (edges : List LabelGraphEdge) : List (String × String) :=
  edges.foldl (fun m e =>
    if e.edge_type = "dname" then alSet m e.source_id e.target_id else m) []

/-- Root search: the first node whose label is "." or "". -/
def findRoot (g : LabelGraph) : Option String :=
  (g.nodes.find? (fun p => p.2.label = "." || p.2.label = "")).map (·.1)

/-- String form of a path element, as produced for domain_sequence. -/
def segToString : PathSeg → String
  | .lab s => s
  | .alpha cs => "alpha_except_[" ++ String.intercalate "," (PyStr.sortedPy cs) ++ "]"

/-- Emits one EC per supported query type for the current path (the inner
for-loop over SUPPORTED_QUERY_TYPES, with the incrementing counter). -/
def mkEcs (ds : List String) (counter : Nat) : List String → List EquivalenceClass
  | [] => []
  | t :: ts => ⟨counter + 1, ds, [t]⟩ :: mkEcs ds (counter + 1) ts

/-- The child states pushed for a stack entry: (id, label) pairs of children
present in the nodes dictionary. -/
def childInfo (g : LabelGraph) (cm : List (String × List String)) (nid : String) :
    List (String × String) :=
  ((alGet cm nid).getD []).filterMap (fun cid => (alGet g.nodes cid).map (fun nd => (cid, nd.label)))

/-- The child states pushed by one iteration (children present in the nodes
dictionary; the alpha label carries its named sibling labels). -/
def childPush (g : LabelGraph) (cm : List (String × List String)) (s : TravState)
    (h : List (String × Nat)) : List TravState :=
  let cinfo := childInfo g cm s.node
  let siblingLabels := (cinfo.filter (fun p => p.2 ≠ "alpha")).map (·.2)
  cinfo.map (fun p =>
    { node := p.1
      path := s.path ++ [if p.2 = "alpha" then PathSeg.alpha siblingLabels else PathSeg.lab p.2]
      history := h : TravState })

/-- The DNAME state pushed by one iteration: same path, target node. -/
def dnamePush (g : LabelGraph) (dm : List (String × String)) (s : TravState)
    (h : List (String × Nat)) : List TravState :=
  match alGet dm s.node with
  | some tid =>
    if (alGet g.nodes tid).isSome then
      [{ node := tid, path := s.path, history := h : TravState }]
    else []
  | none => []

/-- The while-loop of generate_equivalence_classes, with explicit fuel.  The
Python stack pops from the end; here the head of the list is the top of the
stack, so a block of pushes is reversed before being prepended. -/
def genLoop (g : LabelGraph) (cm : List (String × List String)) (dm : List (String × String)) :
    Nat → List TravState → List EquivalenceClass → Nat → Option (List EquivalenceClass)
  | _, [], acc, _ => some acc
  | 0, _ :: _, _, _ => none
  | fuel + 1, s :: rest, acc, counter =>
    -- Type-2 loop detection: same node at the same path length in this branch
    if alGet s.history s.node = some s.path.length then
      genLoop g cm dm fuel rest acc counter
    else
      let h := alSet s.history s.node s.path.length
      -- Max length check (Type-1 DNAME loop termination)
      if s.path.length > MAX_DNS_LENGTH then
        genLoop g cm dm fuel rest acc counter
      else
        let ds := s.path.reverse.map segToString
        genLoop g cm dm fuel ((childPush g cm s h ++ dnamePush g dm s h).reverse ++ rest)
          (acc ++ mkEcs ds counter SUPPORTED_QUERY_TYPES)
          (counter + SUPPORTED_QUERY_TYPES.length)

/-- step3.generate_equivalence_classes, with explicit fuel for the while-loop. -/
def generate_equivalence_classes (g : LabelGraph) (fuel : Nat) :
    Option (List EquivalenceClass) :=
  match findRoot g with
  | none => some []
  | some rid =>
    let rootLabel := ((alGet g.nodes rid).map (·.label)).getD "."
    genLoop g (buildChildrenMap g.edges) (buildDnameMap g.edges) fuel
      [{ node := rid, path := [PathSeg.lab rootLabel], history := [] }] [] 0

end GrootV1

namespace Baseline

/- Embedding of "src/raw API/run_baseline.py": the DomainName/record model,
the Resolver (rank, zone lookup, rr lookup, delegation, resolve) and the
structural delegation-consistency check.  A DomainName is its label list,
stored root-first exactly as in the source; Python sets of records are
modelled as duplicate-free lists in insertion order; record equality is on
(domain, type, value) as in ResourceRecord.__eq__, so the unused ttl and
synthesized fields are omitted.  The nondeterministic iteration order of
Python sets is modelled by list order. -/

/-- DomainName.labels: root-first label list.  The empty list is the root. -/
abbrev Dom := List String

/-- run_baseline.MAX_RESOLUTION_DEPTH, the fuel parameter k. -/
def MAX_RESOLUTION_DEPTH : Nat := 15

/-- DomainName.__str__. -/
def renderDom (d : Dom) : String :=
  if d = [] then "." else String.intercalate "." d.reverse ++ "."

/-- DomainName.__init__ from a string: lower, strip, drop the trailing dot,
split on dots and reverse. -/
def parseDomainStr (s : String) : Dom :=
  let s1 := PyStr.trimPy (PyStr.toLowerPy s)
  if s1 = "" || s1 = "." then []
  else
    let s2 := if PyStr.endsWithPy s1 "." then PyStr.dropLastPy s1 else s1
    (PyStr.splitDot s2).reverse

/-- DomainName.is_wildcard: the leaf label is "*". -/
def isWildcardDom (d : Dom) : Bool :=
  match d.getLast? with
  | some l => l = "*"
  | none => false

/-- DomainName.is_prefix: self has other as a prefix of its label list
(other is an ancestor-or-equal domain of self). -/
def isPrefixDom (self other : Dom) : Bool := other.isPrefixOf self

/-- DomainName.substitute: DNAME-style substitution, including the reparse of
the joined string performed by the source. -/
def substituteDom (self old new : Dom) : Dom :=
  if !(isPrefixDom self old) then self
  else parseDomainStr (renderDom (new ++ self.drop old.length))

/-- The dynamic type of ResourceRecord.value: a DomainName for
CNAME/DNAME/NS/SOA records, a plain string otherwise. -/
inductive RVal where
  | name (d : Dom)
  | raw (s : String)
deriving DecidableEq, Repr

/-- Coerces a record value to a DomainName, as DomainName(value) does on
either a DomainName or a string. -/
def valToDom : RVal → Dom
  | .name d => d
  | .raw s => parseDomainStr s

/-- run_baseline.ResourceRecord restricted to the fields taking part in
__eq__/__hash__ and in the resolution logic. -/
structure RR where
  domain : Dom
  type : String
  value : RVal
deriving DecidableEq, Repr

/-- ResourceRecord.__init__: for CNAME, DNAME, NS and SOA the value becomes
the DomainName of its first whitespace-separated token. -/
def mkRR (domain : String) (t : String) (value : String) : RR :=
  let tu := PyStr.toUpperPy t
  { domain := parseDomainStr domain
    type := tu
    value :=
      if tu = "CNAME" || tu = "DNAME" || tu = "NS" || tu = "SOA" then
        .name (parseDomainStr (PyStr.ofChars
          ((value.data.dropWhile Char.isWhitespace).takeWhile (fun c => !(Char.isWhitespace c)))))
      else .raw value }

/-- run_baseline.Query. -/
structure Query where
  domain : Dom
  qtype : String
deriving DecidableEq, Repr

/-- Query.__init__ applies upper() to the type. -/
def mkQuery (d : Dom) (t : String) : Query := ⟨d, PyStr.toUpperPy t⟩

/-- run_baseline.DNSAnswer: tag plus data.  For AnsQ the data pair
(records, rewritten query) is split into the two fields. -/
structure DNSAnswer where
  tag : String
  records : List RR
  rewritten : Option Query
deriving DecidableEq, Repr

/-- DNSAnswer.get_records. -/
def getRecordsA (a : DNSAnswer) : List RR :=
  if a.tag = "AnsQ" || a.tag = "Ans" || a.tag = "Ref" || a.tag = "NX" then a.records else []

/-- run_baseline.Zone: origin domain plus record set. -/
structure Zone where
  domain : Dom
  records : List RR
deriving DecidableEq, Repr

/-- run_baseline.DNSConfiguration restricted to the fields the resolver reads:
the root servers, Gamma, and the precomputed address-record index. -/
structure Config where
  top_name_servers : List Dom
  zones_by_ns : List (Dom × List Zone)
  address_records : List (Dom × List RR)
deriving DecidableEq, Repr

/-- The address_records precomputation of DNSConfiguration.__init__. -/
def buildAddressRecords (zbn : List (Dom × List Zone)) : List (Dom × List RR) :=
  zbn.foldl (fun m p =>
    p.2.foldl (fun m z =>
      z.records.foldl (fun m r =>
        if r.type = "A" || r.type = "AAAA" then
          alModify m r.domain (fun l => listInsert l r) []
        else m) m) m) []

/-- DNSConfiguration.__init__ from the root servers and Gamma. -/
def mkConfig (top : List Dom) (zbn : List (Dom × List Zone)) : Config :=
  ⟨top, zbn, buildAddressRecords zbn⟩

/-- Resolver._rank: the (is_match, is_zone_cut, match_length, not_wildcard)
tuple of Figure 2, with the booleans as 0/1. -/
def rank (r : RR) (q : Query) (zoneDomain : Dom) : Nat × Nat × Nat × Nat :=
  let isMatch : Bool :=
    if r.domain = q.domain then true
    else if isWildcardDom r.domain
        && isPrefixDom q.domain (parseDomainStr (PyStr.dropTwoPy (renderDom r.domain))) then true
    else isPrefixDom r.domain q.domain
  let isZoneCut : Bool := r.type = "NS" && r.domain ≠ zoneDomain
  let matchLen : Nat := if isPrefixDom r.domain q.domain then r.domain.length else 0
  (if isMatch then 1 else 0, if isZoneCut then 1 else 0, matchLen,
    if isWildcardDom r.domain then 0 else 1)

/-- Lexicographic strict order on rank tuples (Python tuple comparison). -/
def rankLt (a b : Nat × Nat × Nat × Nat) : Bool :=
  if a.1 < b.1 then true else if b.1 < a.1 then false
  else if a.2.1 < b.2.1 then true else if b.2.1 < a.2.1 then false
  else if a.2.2.1 < b.2.2.1 then true else if b.2.2.1 < a.2.2.1 then false
  else a.2.2.2 < b.2.2.2

/-- Python max over the rank values (the first maximal tuple is kept, which
for equal tuples is the same tuple). -/
def maxRank (records : List RR) (q : Query) (zd : Dom) : Nat × Nat × Nat × Nat :=
  match records with
  | [] => (0, 0, 0, 0)
  | r :: rs => rs.foldl (fun acc x => if rankLt acc (rank x q zd) then rank x q zd else acc)
      (rank r q zd)

/-- Resolver._get_soa as a list: the singleton of the first SOA record, or
empty.  (The source puts a possible None into the answer set; the None
element carries no record data and is dropped here.) -/
def soaList (z : Zone) : List RR := (z.records.find? (fun r => r.type = "SOA")).toList

/-- Python set.union on the list model of sets. -/
def listUnion {α : Type} [DecidableEq α] (a b : List α) : List α := b.foldl listInsert a

/-- Resolver._delegation: NS records plus in-bailiwick glue. -/
def delegationA (cfg : Config) (records : List RR) (z : Zone) : DNSAnswer :=
  let nsRecords := records.filter (fun r => r.type = "NS")
  let glue := nsRecords.foldl (fun acc nr =>
    if isPrefixDom (valToDom nr.value) z.domain then
      listUnion acc ((alGet cfg.address_records (valToDom nr.value)).getD [])
    else acc) []
  ⟨"Ref", listUnion nsRecords glue, none⟩

/-- Resolver._rr_lookup.  The for-else wildcard-blocking loop of the source is
the any-test on the zone records; when neither wildcard sub-case returns,
control falls through to the DNAME and delegation checks, as in the source. -/
def rrLookup (cfg : Config) (records : List RR) (q : Query) (z : Zone) : DNSAnswer :=
  match records with
  | [] => ⟨"NX", soaList z, none⟩
  | r0 :: _ =>
    let rd := r0.domain
    let rts := records.map RR.type
    if rd = q.domain then
      if q.qtype ∈ rts then ⟨"Ans", records.filter (fun r => r.type = q.qtype), none⟩
      else if "CNAME" ∈ rts then
        match records.find? (fun r => r.type = "CNAME") with
        | some c => ⟨"AnsQ", [c], some (mkQuery (valToDom c.value) q.qtype)⟩
        | none => ⟨"NX", soaList z, none⟩
      else if "NS" ∈ rts && rd ≠ z.domain then delegationA cfg records z
      else ⟨"Ans", soaList z, none⟩
    else
      let wildcardHit := isWildcardDom rd
        && isPrefixDom q.domain (parseDomainStr (PyStr.dropTwoPy (renderDom rd)))
        && !(z.records.any (fun r => r.domain = q.domain))
      if wildcardHit && q.qtype ∈ rts then ⟨"Ans", records, none⟩
      else if wildcardHit && "CNAME" ∈ rts then
        match records.find? (fun r => r.type = "CNAME") with
        | some c => ⟨"AnsQ", [c], some (mkQuery (valToDom c.value) q.qtype)⟩
        | none => ⟨"NX", soaList z, none⟩
      else if "DNAME" ∈ rts && isPrefixDom rd q.domain then
        match records.find? (fun r => r.type = "DNAME") with
        | some dr =>
          ⟨"AnsQ", [dr], some (mkQuery (substituteDom q.domain rd (valToDom dr.value)) q.qtype)⟩
        | none => ⟨"NX", soaList z, none⟩
      else if "NS" ∈ rts && isPrefixDom rd q.domain then delegationA cfg records z
      else ⟨"NX", soaList z, none⟩

/-- Resolver._zone_lookup: rank all records, keep the maximally ranked ones. -/
def zoneLookup (cfg : Config) (z : Zone) (q : Query) : DNSAnswer :=
  if z.records = [] then ⟨"NX", soaList z, none⟩
  else
    let mr := maxRank z.records q z.domain
    rrLookup cfg (z.records.filter (fun r => rank r q z.domain = mr)) q z

/-- One step of the longest-origin zone selection of Resolver._server_lookup
(max_len starts at -1, so the first matching zone always wins initially; ties
keep the earlier zone). -/
def bestZoneStep (q : Query) (acc : Option Zone) (z : Zone) : Option Zone :=
  if isPrefixDom q.domain z.domain then
    match acc with
    | none => some z
    | some bz => if z.domain.length > bz.domain.length then some z else acc
  else acc

/-- The best-matching-zone loop of Resolver._server_lookup. -/
def bestZone (zones : List Zone) (q : Query) : Option Zone :=
  zones.foldl (bestZoneStep q) none

/-- Resolver._server_lookup. -/
def serverLookup (cfg : Config) (ns : Dom) (q : Query) : DNSAnswer :=
  let zones := (alGet cfg.zones_by_ns ns).getD []
  if zones = [] then ⟨"Refused", [], none⟩
  else
    match bestZone zones q with
    | none => ⟨"Refused", [], none⟩
    | some z => zoneLookup cfg z q

/-- A node key of the interpretation graph: (nameserver, repr(query)); the
repr is injective on the model, so the query itself is the key. -/
structure NodeKey where
  ns : Dom
  q : Query
deriving DecidableEq, Repr

/-- A node of the interpretation graph of run_baseline. -/
structure IGNode where
  ns : Dom
  query : Query
  answer : DNSAnswer
  depth : Nat
  is_sink : Bool
deriving DecidableEq, Repr

/-- An edge of the interpretation graph. -/
structure IGEdge where
  src : NodeKey
  tgt : NodeKey
  etype : String
deriving DecidableEq, Repr

/-- run_baseline.InterpretationGraph. -/
structure IGGraph where
  ec_query : Query
  nodes : List (NodeKey × IGNode)
  edges : List IGEdge
  entry_points : List NodeKey
deriving DecidableEq, Repr

/-- InterpretationGraph.add_node: inserts only a fresh key. -/
def addNode (g : IGGraph) (ns : Dom) (q : Query) (a : DNSAnswer) (d : Nat) : IGGraph :=
  if (alGet g.nodes ⟨ns, q⟩).isSome then g
  else { g with nodes := g.nodes ++ [(⟨ns, q⟩, ⟨ns, q, a, d, true⟩)] }

/-- InterpretationGraph.add_edge: clears is_sink on the source node and
appends the edge. -/
def addEdge (g : IGGraph) (fk tk : NodeKey) (t : String) : IGGraph :=
  { g with
    nodes := g.nodes.map (fun p => if p.1 = fk then (p.1, { p.2 with is_sink := false }) else p)
    edges := g.edges ++ [⟨fk, tk, t⟩] }

/-- A worklist item of Resolver.resolve:
(from_ns, from_q, to_ns, to_q, depth), with the absent parent as none. -/
structure QItem where
  fromK : Option NodeKey
  ns : Dom
  q : Query
  depth : Nat
deriving DecidableEq, Repr

/-- Whether the current server is authoritative for a suffix of the rewritten
query (the is_local test of Resolver.resolve). -/
def isLocalRewrite (cfg : Config) (ns : Dom) (rq : Query) : Bool :=
  ((alGet cfg.zones_by_ns ns).getD []).any (fun z => isPrefixDom rq.domain z.domain)

/-- The successor items enqueued by one iteration of Resolver.resolve for the
computed answer: the AnsQ branch (restart at the roots unless local) and the
Ref branch (follow every NS record). -/
def successors (cfg : Config) (ns : Dom) (q : Query) (a : DNSAnswer) (d : Nat) : List QItem :=
  if a.tag = "AnsQ" then
    match a.rewritten with
    | some rq =>
      if isLocalRewrite cfg ns rq then [⟨some ⟨ns, q⟩, ns, rq, d + 1⟩]
      else cfg.top_name_servers.map (fun t => ⟨some ⟨ns, q⟩, t, rq, d + 1⟩)
    | none => []
  else if a.tag = "Ref" then
    (getRecordsA a).filterMap (fun r =>
      if r.type = "NS" then some (⟨some ⟨ns, q⟩, valToDom r.value, q, d + 1⟩ : QItem) else none)
  else []

/-- The while-loop of Resolver.resolve, with explicit fuel. -/
def resolveLoop (cfg : Config) :
    Nat → List QItem → IGGraph → List (Dom × Query × Nat) → Option IGGraph
  | _, [], g, _ => some g
  | 0, _ :: _, _, _ => none
  | fuel + 1, it :: rest, g, visited =>
    let st := (it.ns, it.q, it.depth)
    if st ∈ visited then resolveLoop cfg fuel rest g visited
    else
      let visited := visited ++ [st]
      if it.depth ≥ MAX_RESOLUTION_DEPTH then
        let a : DNSAnswer := ⟨"ServFail", [], none⟩
        let g := addNode g it.ns it.q a it.depth
        let g :=
          match it.fromK with
          | some fk => addEdge g fk ⟨it.ns, it.q⟩ "Timeout"
          | none => g
        resolveLoop cfg fuel rest g visited
      else
        let a := serverLookup cfg it.ns it.q
        let g := addNode g it.ns it.q a it.depth
        let g :=
          match it.fromK with
          | some fk => addEdge g fk ⟨it.ns, it.q⟩ "Referral"
          | none => g
        resolveLoop cfg fuel (rest ++ successors cfg it.ns it.q a it.depth) g visited

/-- Resolver.resolve, with explicit fuel for the while-loop. -/
def resolve (cfg : Config) (q : Query) (fuel : Nat) : Option IGGraph :=
  let g0 : IGGraph := ⟨q, [], [], cfg.top_name_servers.map (fun ns => ⟨ns, q⟩)⟩
  resolveLoop cfg fuel (cfg.top_name_servers.map (fun ns => ⟨none, ns, q, 0⟩)) g0 []

/-- PropertyChecker._check_delegation_consistency_structural: for every parent
zone, collect its delegations (NS records below the apex, plus A/AAAA records
as glue, both creating the per-domain entry), and compare each with the NS
set at the apex of every zone registered under the delegated domain. -/
def checkDelegationStructural (zbd : List (Dom × List Zone)) : List (Dom × String) :=
  zbd.foldl (fun viols p =>
    p.2.foldl (fun viols pz =>
      let delegations : List (Dom × (List RR × List RR)) :=
        pz.records.foldl (fun m rec =>
          let m :=
            if rec.type = "NS" && rec.domain ≠ pz.domain then
              alModify m rec.domain (fun d => (listInsert d.1 rec, d.2)) ([], [])
            else m
          if rec.type = "A" || rec.type = "AAAA" then
            alModify m rec.domain (fun d => (d.1, listInsert d.2 rec)) ([], [])
          else m) []
      delegations.foldl (fun viols del =>
        match alGet zbd del.1 with
        | some childZones =>
          childZones.foldl (fun viols cz =>
            let childNs := cz.records.filter (fun r => r.type = "NS" && r.domain = cz.domain)
            if !(listSetEq del.2.1 childNs) then
              viols ++ [(del.1, "Inconsistency detected in NS records between "
                ++ renderDom pz.domain ++ " and " ++ renderDom cz.domain ++ ".")]
            else viols) viols
        | none => viols) viols) viols) []

end Baseline

namespace GrootV1

/- Embedding of step4.find_authoritative_zone and
step4.generate_interpretation_graphs, and of the step5 property checks the
claims use.  The uuid node identifiers of the source serve only as fresh
names; they are modelled by a counter. -/

/-- data_structure.configuration.DNSConfigurationObject (Gamma maps a server
to the names of the zones it serves, as declared by the TypedDict). -/
structure DNSConfig where
  S : List String
  Theta : List String
  Gamma : List (String × List String)
  Omega : List (String × String)
deriving DecidableEq, Repr

/-- data_structure.dns_entities.ZoneMap. -/
structure ZoneMap where
  domain_to_zone : List (String × Zone)
deriving DecidableEq, Repr

/-- step4.get_domain_from_sequence. -/
def get_domain_from_sequence (seq : List String) : String :=
  String.intercalate "." (seq.filter (fun l => l ≠ "" && l ≠ ".")) ++ "."

/-- The zone-name match test of find_authoritative_zone: the normalized zone
name is the root, equals the normalized query, or is a dot-separated suffix
of it. -/
def zoneNameMatches (zoneName query : String) : Bool :=
  let qn := ensureDot query
  let zn := ensureDot zoneName
  zn = "." || qn = zn || PyStr.endsWithPy qn ("." ++ zn)

/-- The zone-object lookup of find_authoritative_zone, trying the raw name,
the normalized name, and the name with trailing dots stripped. -/
def zoneObjFor (zm : ZoneMap) (zoneName : String) : Option Zone :=
  let zn := ensureDot zoneName
  match alGet zm.domain_to_zone zoneName with
  | some z => some z
  | none =>
    match alGet zm.domain_to_zone zn with
    | some z => some z
    | none => alGet zm.domain_to_zone (PyStr.rstripDotPy zn)

/-- One iteration of the best-zone fold of find_authoritative_zone. -/
def fazStep (query : String) (zm : ZoneMap) (acc : Option (Zone × Nat))
    (zoneName : String) : Option (Zone × Nat) :=
  if zoneNameMatches zoneName query then
    match zoneObjFor zm zoneName with
    | some z =>
      let zLen := ((PyStr.splitDot (ensureDot zoneName)).filter (fun l => l ≠ "")).length
      match acc with
      | some bl => if zLen > bl.2 then some (z, zLen) else acc
      | none => some (z, zLen)
    | none => acc
  else acc

/-- step4.find_authoritative_zone: the longest-suffix zone served by the
server whose data is present (longest_match_len starts at -1). -/
def find_authoritative_zone (server query : String) (cfg : DNSConfig) (zm : ZoneMap) :
    Option Zone :=
  match alGet cfg.Gamma server with
  | none => none
  | some served => (served.foldl (fazStep query zm) none).map (·.1)

/-- data_structure.interpretation_graph.InterpretationNode (node_id as the
creation counter; state inlined). -/
structure IGNode where
  node_id : Nat
  nameserver : String
  current_query : String
  query_type_bitmap : List String
  tags : List String
  records : List RR
  answer : Option Answer
deriving DecidableEq, Repr

/-- data_structure.interpretation_graph.InterpretationEdge. -/
structure IGEdge where
  source_id : Nat
  target_id : Nat
  action : String
deriving DecidableEq, Repr

/-- One worklist entry of generate_interpretation_graphs:
(state, parent_node_id, edge_action_from_parent). -/
structure WItem where
  server : String
  query : String
  types : List String
  parent : Option Nat
  action : Option String
deriving DecidableEq, Repr

/-- The mutable state of the per-EC worklist loop. -/
structure IGState where
  nodes : List (Nat × IGNode)
  edges : List IGEdge
  visited : List ((String × String × List String) × Nat)
  counter : Nat
deriving DecidableEq, Repr

/-- Lookup in visited_states: the key holds frozenset(types), so the type
lists compare as sets. -/
def visGet (v : List ((String × String × List String) × Nat)) (s q : String)
    (ts : List String) : Option Nat :=
  (v.find? (fun p => p.1.1 = s && p.1.2.1 = q && listSetEq p.1.2.2 ts)).map (·.2)

/-- The while-loop of generate_interpretation_graphs for one equivalence
class, with explicit fuel.  The node is inserted with its final tags, records
and answer; the source fills the same fields by mutation before the next
iteration observes them. -/
def igLoop (cfg : DNSConfig) (zm : ZoneMap) :
    Nat → List WItem → IGState → Option IGState
  | _, [], st => some st
  | 0, _ :: _, _ => none
  | fuel + 1, it :: rest, st =>
    match visGet st.visited it.server it.query it.types with
    | some nid =>
      let st :=
        match it.parent with
        | some pid =>
          let e : IGEdge := ⟨pid, nid, it.action.getD "unknown"⟩
          if e ∈ st.edges then st else { st with edges := st.edges ++ [e] }
        | none => st
      igLoop cfg zm fuel rest st
    | none =>
      let nid := st.counter
      let visited := st.visited ++ [((it.server, it.query, it.types), nid)]
      let edges :=
        match it.parent with
        | some pid => st.edges ++ [⟨pid, nid, it.action.getD "unknown"⟩]
        | none => st.edges
      match find_authoritative_zone it.server it.query cfg zm with
      | none =>
        let node : IGNode := ⟨nid, it.server, it.query, it.types, ["REFUSED"], [], none⟩
        igLoop cfg zm fuel rest
          ⟨st.nodes ++ [(nid, node)], edges, visited, nid + 1⟩
      | some zone =>
        let outcomes := symbolic_server_lookup zone it.query it.types
        let allTags := outcomes.foldl (fun acc o => listInsert acc o.answer.type) []
        let allRecords := outcomes.foldl (fun acc o => acc ++ o.records) []
        let answer := (outcomes.find? (fun o => o.answer.type = "ANS" || o.answer.type = "NX")).map (·.answer)
        let pushes := outcomes.foldl (fun acc o =>
          if o.answer.type = "REF" then
            acc ++ (o.answer.target_servers.getD []).map (fun ns =>
              (⟨ns, it.query, o.types, some nid, some "referral"⟩ : WItem))
          else if o.answer.type = "ANSQ" then
            acc ++ cfg.Theta.map (fun root =>
              (⟨root, o.answer.new_query.getD "", o.types, some nid, some "rewrite"⟩ : WItem))
          else acc) []
        let node : IGNode := ⟨nid, it.server, it.query, it.types, allTags, allRecords, answer⟩
        igLoop cfg zm fuel (rest ++ pushes)
          ⟨st.nodes ++ [(nid, node)], edges, visited, nid + 1⟩

/-- data_structure.interpretation_graph.InterpretationGraph for one EC. -/
structure IG where
  ec_id : Nat
  nodes : List (Nat × IGNode)
  edges : List IGEdge
deriving DecidableEq, Repr

/-- The per-EC body of step4.generate_interpretation_graphs, with fuel. -/
def buildIG (cfg : DNSConfig) (zm : ZoneMap) (fuel : Nat) (ec : EquivalenceClass) : Option IG :=
  let qd := get_domain_from_sequence ec.domain_sequence
  let init := cfg.Theta.map (fun root => (⟨root, qd, ec.query_types, none, none⟩ : WItem))
  (igLoop cfg zm fuel init ⟨[], [], [], 0⟩).map (fun st => ⟨ec.ec_id, st.nodes, st.edges⟩)

/-- step4.generate_interpretation_graphs over a list of ECs. -/
def generate_interpretation_graphs (cfg : DNSConfig) (zm : ZoneMap) (fuel : Nat)
    (ecs : List EquivalenceClass) : Option (List IG) :=
  ecs.mapM (buildIG cfg zm fuel)

/-- step5._check_lame_delegation: some node carries the REFUSED tag. -/
def check_lame_delegation (g : IG) : Bool :=
  g.nodes.any (fun p => "REFUSED" ∈ p.2.tags)

end GrootV1

namespace GrootV1

/- Embedding of step1_Input_Parsing_and_Configuration_Initialization.  File
system access is modelled by a finite map from paths to contents; the
BIND-format text parser is out of scope per the specification and enters the
embedding as an explicit parameter giving the records parsed from a file
content. -/

/-- The file system: path to content. -/
abbrev FS := List (String × String)

/-- step1.parse_zone_file: an absent file yields the empty record list (the
source prints a warning); an existing file is handed to the text parser. -/
def parse_zone_file (contentRecords : String → List RR) (fs : FS) (path : String) : List RR :=
  match alGet fs path with
  | none => []
  | some content => contentRecords content

/-- os.path.join for the relative paths the source builds. -/
def pathJoin (a b : String) : String := a ++ "/" ++ b

/-- One entry of the metadata zones list, after the synonym key lookup
(domain_name/Origin, file_name/FileName, authoritative_servers/NameServer)
and after the list-or-string normalization of the nameserver value. -/
structure ZoneInfo where
  domain_name : String
  file_name : String
  nameservers : List String
deriving DecidableEq, Repr

/-- The parsed metadata.json, after synonym key lookup. -/
structure Metadata where
  root_nameservers : List String
  zones : List ZoneInfo
deriving DecidableEq, Repr

/-- The accumulating state of the zone loop of
input_parsing_and_configuration_initialization. -/
structure ProcState where
  s_set : List String
  gamma : List (String × List Zone)
  domain_to_zone : List (String × Zone)
deriving Repr

/-- The body of the zone loop: skip nameless entries, parse the file, register
the zone under its declared origin, extend Gamma for each nameserver. -/
def procZone (contentRecords : String → List RR) (fs : FS) (dataset_path : String)
    (st : ProcState) (zi : ZoneInfo) : ProcState :=
  if zi.domain_name = "" || zi.file_name = "" then st
  else
    let parsed := parse_zone_file contentRecords fs (pathJoin dataset_path zi.file_name)
    let zoneObj : Zone := ⟨zi.domain_name, parsed⟩
    let d2z := alSet st.domain_to_zone zi.domain_name zoneObj
    let st2 := zi.nameservers.foldl (fun st ns =>
      { st with
        s_set := listInsert st.s_set ns
        gamma := alModify st.gamma ns (fun l => if zoneObj ∈ l then l else l ++ [zoneObj]) [] })
      { st with domain_to_zone := d2z }
    st2

/-- The result of input parsing: the configuration tuple and the zone map. -/
structure InitResult where
  S : List String
  Theta : List String
  Gamma : List (String × List Zone)
  Omega : List (String × String)
  domain_to_zone : List (String × Zone)
deriving Repr

/-- step1.input_parsing_and_configuration_initialization on already decoded
metadata (JSON decoding is out of scope; a decode failure aborts before this
logic runs). -/
def input_parsing_and_configuration_initialization (contentRecords : String → List RR)
    (fs : FS) (dataset_path : String) (meta : Metadata) : InitResult :=
  let theta := meta.root_nameservers.foldl listInsert []
  let s0 := meta.root_nameservers.foldl listInsert []
  let st := meta.zones.foldl (procZone contentRecords fs dataset_path) ⟨s0, [], []⟩
  { S := st.s_set
    Theta := theta
    Gamma := st.gamma
    Omega := st.s_set.map (fun n => (n, n))
    domain_to_zone := st.domain_to_zone }

end GrootV1

namespace Repro

/- Embedding of AutoGen/repro_paper_workspace: the dns_defs Record/Zone model
and checkers.check_delegation_consistency. -/

/-- dns_defs.Record restricted to the fields the checker reads. -/
structure Record where
  name : String
  rtype : String
  rdata : String
deriving DecidableEq, Repr

/-- dns_defs.Zone. -/
structure Zone where
  name : String
  server_name : String
  records : List Record
deriving DecidableEq, Repr

/-- Zone.get_records with an explicit type filter. -/
def get_records (z : Zone) (name rtype : String) : List Record :=
  z.records.filter (fun r => r.name = name && r.rtype = rtype)

/-- The zone map of GrootEngine: (server name, zone name) to zone. -/
abbrev ZoneMap := List ((String × String) × Zone)

/-- One step of the parent search of check_delegation_consistency. -/
def fpkStep (z_name : String) (acc : Option ((String × String) × Zone × Nat))
    (p : (String × String) × Zone) : Option ((String × String) × Zone × Nat) :=
  if p.1.2 = z_name then acc
  else if PyStr.endsWithPy z_name p.1.2 then
    match acc with
    | none => some (p.1, p.2, PyStr.lenPy p.1.2)
    | some b => if PyStr.lenPy p.1.2 > b.2.2 then some (p.1, p.2, PyStr.lenPy p.1.2) else acc
  else acc

/-- The parent search of check_delegation_consistency, also keeping the key
and name length of the chosen parent (best_len starts at -1; ties keep the
earlier entry; entries with the same zone name are skipped). -/
def findParentK (zm : ZoneMap) (z_name : String) :
    Option ((String × String) × Zone × Nat) :=
  zm.foldl (fpkStep z_name) none

/-- The parent zone chosen by check_delegation_consistency. -/
def findParent (zm : ZoneMap) (z_name : String) : Option Zone :=
  (findParentK zm z_name).map (fun x => x.2.1)

/-- The comparison core of check_delegation_consistency for one zone-map
entry: sets of NS rdata at the zone origin, in the parent and in the child. -/
def delegationIssueEntry (zm : ZoneMap) (z_name : String) (zone : Zone) : Bool :=
  match findParent zm z_name with
  | none => false
  | some parent =>
    let pSet := (get_records parent z_name "NS").map (·.rdata)
    let cSet := (get_records zone z_name "NS").map (·.rdata)
    !(listSetEq pSet cSet)

/-- checkers.check_delegation_consistency: one issue per in-scope zone whose
NS set at its origin differs from the parent delegation. -/
def check_delegation_consistency (zm : ZoneMap) (domain : String) (subMode : Bool) :
    List (String × String) :=
  zm.foldl (fun issues p =>
    let inScope := if subMode then PyStr.endsWithPy p.1.2 domain else p.1.2 = domain
    if !inScope then issues
    else
      match findParentK zm p.1.2 with
      | none => issues
      | some par =>
        let pSet := (get_records par.2.1 p.1.2 "NS").map (·.rdata)
        let cSet := (get_records p.2 p.1.2 "NS").map (·.rdata)
        if !(listSetEq pSet cSet) then
          issues ++ [(p.1.2, "Inconsistency detected in NS records between "
            ++ par.2.1.server_name ++ " and " ++ p.2.server_name ++ ".")]
        else issues) []

/-- Exchanges the NS record sets owned at z_name between the zones stored at
the child key and at the parent key. -/
def swapNSAt (zm : ZoneMap) (ck pk : String × String) (z_name : String) : ZoneMap :=
  match alGet zm ck, alGet zm pk with
  | some cz, some pz =>
    let isNsAt := fun (r : Record) => r.name = z_name && r.rtype = "NS"
    let cNS := cz.records.filter isNsAt
    let pNS := pz.records.filter isNsAt
    zm.map (fun p => (p.1,
      if p.1 = ck then { p.2 with records := p.2.records.filter (fun r => !(isNsAt r)) ++ pNS }
      else if p.1 = pk then { p.2 with records := p.2.records.filter (fun r => !(isNsAt r)) ++ cNS }
      else p.2))
  | _, _ => zm

end Repro

/- Shared lemmas about the dictionary and set models. -/

theorem alGet_alSet_self {κ β : Type} [DecidableEq κ] (m : List (κ × β)) (k : κ) (v : β) :
    alGet (alSet m k v) k = some v := by
  induction m with
  | nil => simp [alSet, alGet]
  | cons p rest ih =>
    by_cases h : p.1 = k
    · simp [alSet, alGet, h]
    · simp [alSet, alGet, h, ih]

theorem alGet_alSet_ne {κ β : Type} [DecidableEq κ] (m : List (κ × β)) (k k' : κ) (v : β)
    (h : k' ≠ k) : alGet (alSet m k v) k' = alGet m k' := by
  induction m with
  | nil => simp [alSet, alGet, Ne.symm h]
  | cons p rest ih =>
    by_cases hp : p.1 = k
    · subst hp
      simp [alSet, alGet, h, Ne.symm h]
    · simp [alSet, alGet, hp, ih]

theorem alGet_alModify_self {κ β : Type} [DecidableEq κ] (m : List (κ × β)) (k : κ)
    (f : β → β) (d : β) : alGet (alModify m k f d) k = some (f ((alGet m k).getD d)) := by
  induction m with
  | nil => simp [alModify, alGet]
  | cons p rest ih =>
    by_cases h : p.1 = k
    · simp [alModify, alGet, h]
    · simp [alModify, alGet, h, ih]

theorem alGet_alModify_ne {κ β : Type} [DecidableEq κ] (m : List (κ × β)) (k k' : κ)
    (f : β → β) (d : β) (h : k' ≠ k) : alGet (alModify m k f d) k' = alGet m k' := by
  induction m with
  | nil => simp [alModify, alGet, Ne.symm h]
  | cons p rest ih =>
    by_cases hp : p.1 = k
    · subst hp
      simp [alModify, alGet, Ne.symm h]
    · simp [alModify, alGet, hp, ih]

theorem alGet_mem {κ β : Type} [DecidableEq κ] (m : List (κ × β)) (k : κ) (v : β)
    (h : alGet m k = some v) : (k, v) ∈ m := by
  induction m with
  | nil => simp [alGet] at h
  | cons p rest ih =>
    rw [show alGet (p :: rest) k = if p.1 = k then some p.2 else alGet rest k from rfl] at h
    by_cases hp : p.1 = k
    · rw [if_pos hp] at h
      have hv : p.2 = v := by injection h
      have hpkv : p = (k, v) := Prod.ext hp hv
      rw [← hpkv]
      exact List.mem_cons_self _ _
    · rw [if_neg hp] at h
      exact List.mem_cons_of_mem _ (ih h)

theorem alGet_key_mem {κ β : Type} [DecidableEq κ] (m : List (κ × β)) (k : κ)
    (h : (alGet m k).isSome = true) : k ∈ m.map Prod.fst := by
  rcases Option.isSome_iff_exists.mp h with ⟨v, hv⟩
  exact List.mem_map.mpr ⟨(k, v), alGet_mem m k v hv, rfl⟩

theorem listInsert_length {α : Type} [DecidableEq α] (l : List α) (x : α) :
    (listInsert l x).length ≤ l.length + 1 := by
  unfold listInsert
  split
  · omega
  · simp

theorem listUnion_length {α : Type} [DecidableEq α] (a b : List α) :
    (Baseline.listUnion a b).length ≤ a.length + b.length := by
  unfold Baseline.listUnion
  induction b generalizing a with
  | nil => simp
  | cons x xs ih =>
    calc (xs.foldl listInsert (listInsert a x)).length
        ≤ (listInsert a x).length + xs.length := ih (listInsert a x)
      _ ≤ (a.length + 1) + xs.length := Nat.add_le_add_right (listInsert_length a x) _
      _ = a.length + (x :: xs).length := by simp [Nat.add_comm, Nat.add_assoc, Nat.add_left_comm]

theorem mem_listInsert_iff {α : Type} [DecidableEq α] (l : List α) (x y : α) :
    y ∈ listInsert l x ↔ y ∈ l ∨ y = x := by
  unfold listInsert
  split
  · next h =>
    constructor
    · exact fun hy => Or.inl hy
    · rintro (hy | rfl)
      · exact hy
      · exact h
  · simp [or_comm]

theorem listSetEq_symm {α : Type} [DecidableEq α] (a b : List α) :
    listSetEq a b = listSetEq b a := by
  unfold listSetEq
  exact Bool.and_comm _ _

/-- The key auxiliary inequality for worklist termination: a block of at most
B - 1 pushes, each with a strictly smaller exponent, weighs less than the
popped element. -/
theorem sumPowLt (l : List Nat) (B e : Nat) (hB : 2 ≤ B) (hlen : l.length ≤ B - 1)
    (hlt : ∀ x ∈ l, x < e) : (l.map (B ^ ·)).sum < B ^ e := by
  rcases l with _ | ⟨x, xs⟩
  · simpa using Nat.pos_pow_of_pos e (by omega)
  · have he : 1 ≤ e := Nat.lt_of_lt_of_le (Nat.zero_lt_of_lt (hlt x (by simp))) (le_refl e)
    have hle : ∀ y ∈ (x :: xs).map (B ^ ·), y ≤ B ^ (e - 1) := by
      intro y hy
      rcases List.mem_map.mp hy with ⟨z, hz, rfl⟩
      exact Nat.pow_le_pow_right (by omega) (by have := hlt z hz; omega)
    have hsum : ((x :: xs).map (B ^ ·)).sum ≤ ((x :: xs).map (B ^ ·)).length * B ^ (e - 1) := by
      calc ((x :: xs).map (B ^ ·)).sum
          ≤ ((x :: xs).map (B ^ ·)).length • (B ^ (e - 1)) := List.sum_le_card_nsmul _ _ hle
        _ = ((x :: xs).map (B ^ ·)).length * B ^ (e - 1) := by simp [smul_eq_mul]
    have hlen' : ((x :: xs).map (B ^ ·)).length ≤ B - 1 := by simpa using hlen
    have hmain : ((x :: xs).map (B ^ ·)).sum ≤ (B - 1) * B ^ (e - 1) :=
      le_trans hsum (Nat.mul_le_mul_right _ hlen')
    have hfin : (B - 1) * B ^ (e - 1) < B ^ e := by
      have hsplit : B ^ e = B * B ^ (e - 1) := by
        conv_lhs => rw [show e = (e - 1) + 1 by omega]
        ring
      rw [hsplit]
      have hpos : 0 < B ^ (e - 1) := Nat.pos_pow_of_pos _ (by omega)
      exact Nat.mul_lt_mul_of_lt_of_le (by omega) (le_refl _) hpos
    omega

theorem countP_le_of_imp {α : Type} (p q : α → Bool) (l : List α)
    (hpq : ∀ x, q x = true → p x = true) : l.countP q ≤ l.countP p := by
  induction l with
  | nil => simp
  | cons y ys ih =>
    simp only [List.countP_cons]
    have hy2 : (if q y = true then 1 else 0) ≤ (if p y = true then 1 else 0) := by
      by_cases hy : q y = true
      · rw [if_pos hy, if_pos (hpq y hy)]
      · rw [if_neg hy]
        exact Nat.zero_le _
    omega

theorem countP_lt_of_flip {α : Type} (p q : α → Bool) (l : List α) (a : α) (ha : a ∈ l)
    (hpq : ∀ x, q x = true → p x = true) (hqa : q a = false) (hpa : p a = true) :
    l.countP q < l.countP p := by
  induction l with
  | nil => cases ha
  | cons x xs ih =>
    rcases List.mem_cons.mp ha with rfl | ha'
    · have h1 : (if q a = true then 1 else 0) = 0 := by rw [hqa]; simp
      have h2 : (if p a = true then 1 else 0) = 1 := by rw [hpa]; simp
      simp only [List.countP_cons, h1, h2]
      have := countP_le_of_imp p q xs hpq
      omega
    · have hlt := ih ha'
      simp only [List.countP_cons]
      have hx2 : (if q x = true then 1 else 0) ≤ (if p x = true then 1 else 0) := by
        by_cases hx : q x = true
        · rw [if_pos hx, if_pos (hpq x hx)]
        · rw [if_neg hx]
          exact Nat.zero_le _
      omega

namespace GrootV1

theorem insertOutcome_types_perm (acc : List (OutcomeKey × (List String × List RR)))
    (k : OutcomeKey) (t : String) (used : List RR) :
    ((insertOutcome acc k t used).flatMap (fun p => p.2.1)).Perm
      ((acc.flatMap (fun p => p.2.1)) ++ [t]) := by
  induction acc with
  | nil => simp [insertOutcome]
  | cons p rest ih =>
    rcases p with ⟨k', ts, rs⟩
    by_cases h : k' = k
    · simp only [insertOutcome, h, if_true, List.flatMap_cons]
      rw [List.append_assoc, List.append_assoc]
      exact List.Perm.append_left ts List.perm_append_comm
    · simp only [insertOutcome, h, if_false, List.flatMap_cons]
      rw [List.append_assoc]
      exact List.Perm.append_left ts ih

theorem foldOutcome_types_perm (F : String → OutcomeKey × List RR) :
    ∀ (ts : List String) (acc : List (OutcomeKey × (List String × List RR))),
    ((ts.foldl (fun acc t => insertOutcome acc (F t).1 t (F t).2) acc).flatMap
        (fun p => p.2.1)).Perm ((acc.flatMap (fun p => p.2.1)) ++ ts) := by
  intro ts
  induction ts with
  | nil => intro acc; simp
  | cons t ts ih =>
    intro acc
    simp only [List.foldl_cons]
    refine (ih _).trans ?_
    have h1 := insertOutcome_types_perm acc (F t).1 t (F t).2
    refine (h1.append_right ts).trans ?_
    rw [List.append_assoc]
    simp

theorem countP_mem_le_count_flatMap (L : List OutcomeGroup) (t : String) :
    L.countP (fun g => decide (t ∈ g.types)) ≤ (L.flatMap (fun g => g.types)).count t := by
  induction L with
  | nil => simp
  | cons g L ih =>
    simp only [List.countP_cons, List.flatMap_cons, List.count_append]
    by_cases h : t ∈ g.types
    · have h1 : 1 ≤ g.types.count t := List.count_pos_iff.mpr h
      have h2 : (if (decide (t ∈ g.types)) = true then 1 else 0) = 1 := by simp [h]
      rw [h2]
      omega
    · have h2 : (if (decide (t ∈ g.types)) = true then 1 else 0) = 0 := by simp [h]
      rw [h2]
      omega

theorem flatMap_types_map_proj (l : List (OutcomeKey × (List String × List RR))) :
    ((l.map (fun g =>
      ({ types := g.2.1
         answer :=
           { type := g.1.otype
             target_servers := if g.1.otype = "REF" then some g.1.targets else none
             new_query := if g.1.otype = "ANSQ" then some g.1.newq else none }
         records := g.2.2 } : OutcomeGroup))).flatMap (fun g => g.types)) =
      l.flatMap (fun p => p.2.1) := by
  induction l with
  | nil => simp
  | cons p rest ih => simp [ih]

/-- C10: for every zone, query name and duplicate-free list of query types,
symbolic_server_lookup partitions the queried types: the concatenation of the
type lists of the returned outcome groups is a permutation of the input
types, every type in a group comes from the input, and each input type
appears in exactly one group. -/
theorem symbolic_server_lookup_partitions_types (zone : Zone) (query : String)
    (types : List String) (hnd : types.Nodup) :
    ((symbolic_server_lookup zone query types).flatMap (fun g => g.types)).Perm types ∧
    (∀ g ∈ symbolic_server_lookup zone query types, ∀ t ∈ g.types, t ∈ types) ∧
    (∀ t ∈ types, (symbolic_server_lookup zone query types).countP
        (fun g => decide (t ∈ g.types)) = 1) := by
  have hperm : ((symbolic_server_lookup zone query types).flatMap (fun g => g.types)).Perm types := by
    simp only [symbolic_server_lookup]
    rw [flatMap_types_map_proj]
    simpa using foldOutcome_types_perm _ types []
  refine ⟨hperm, ?_, ?_⟩
  · intro g hg t ht
    exact hperm.mem_iff.mp (List.mem_flatMap.mpr ⟨g, hg, ht⟩)
  · intro t ht
    have hcount : ((symbolic_server_lookup zone query types).flatMap (fun g => g.types)).count t = 1 := by
      rw [hperm.count_eq t]
      exact List.count_eq_one_of_mem hnd ht
    have hle : (symbolic_server_lookup zone query types).countP (fun g => decide (t ∈ g.types)) ≤ 1 := by
      have := countP_mem_le_count_flatMap (symbolic_server_lookup zone query types) t
      omega
    have hmem : t ∈ (symbolic_server_lookup zone query types).flatMap (fun g => g.types) :=
      hperm.mem_iff.mpr ht
    rcases List.mem_flatMap.mp hmem with ⟨g, hg, hgt⟩
    have hpos : 0 < (symbolic_server_lookup zone query types).countP (fun g => decide (t ∈ g.types)) :=
      List.countP_pos_iff.mpr ⟨g, hg, by simpa using hgt⟩
    omega

/-- A concrete zone with a CNAME and an address record at the same owner name,
used by several witnesses and counterexamples. -/
def zoneCnameAndA : Zone :=
  { origin := "example."
    records :=
      [ { name := "example.", ttl := 3600, type := "SOA",
          rdata := "ns1.example. admin.example. 1 1 1 1 1" }
      , { name := "a.example.", ttl := 300, type := "CNAME", rdata := "b.example." }
      , { name := "a.example.", ttl := 300, type := "A", rdata := "1.2.3.4" } ] }

/-- Witness for C10 at a concrete zone, query and type list. -/
theorem symbolic_server_lookup_partitions_types_witness :
    (["A", "CNAME", "MX"] : List String).Nodup ∧
    (((symbolic_server_lookup zoneCnameAndA "a.example." ["A", "CNAME", "MX"]).flatMap
        (fun g => g.types)).Perm ["A", "CNAME", "MX"] ∧
      (∀ g ∈ symbolic_server_lookup zoneCnameAndA "a.example." ["A", "CNAME", "MX"],
        ∀ t ∈ g.types, t ∈ (["A", "CNAME", "MX"] : List String)) ∧
      (∀ t ∈ (["A", "CNAME", "MX"] : List String),
        (symbolic_server_lookup zoneCnameAndA "a.example." ["A", "CNAME", "MX"]).countP
          (fun g => decide (t ∈ g.types)) = 1)) :=
  ⟨by decide,
    symbolic_server_lookup_partitions_types zoneCnameAndA "a.example." ["A", "CNAME", "MX"]
      (by decide)⟩

end GrootV1

namespace GrootV1

/- Named views of the let-bindings of symbolic_server_lookup, used to state
claims about its branches. -/

/-- The closest encloser computed by symbolic_server_lookup. -/
def sslCE (zone : Zone) (query : String) : String :=
  closestEncloser (records_map zone) (ensureDot query) (ensureDot zone.origin)

/-- The rrset of the closest encloser in symbolic_server_lookup. -/
def sslRrset (zone : Zone) (query : String) : List (String × List RR) :=
  (alGet (records_map zone) (sslCE zone query)).getD []

/-- The is_delegation flag of symbolic_server_lookup. -/
def sslIsDeleg (zone : Zone) (query : String) : Bool :=
  (alGet (sslRrset zone query) "NS").isSome && !(alGet (sslRrset zone query) "SOA").isSome

/-- The has_dname flag of symbolic_server_lookup. -/
def sslHasDname (zone : Zone) (query : String) : Bool :=
  (alGet (sslRrset zone query) "DNAME").isSome

/-- The per-type outcome of symbolic_server_lookup. -/
def sslOutcome (zone : Zone) (query t : String) : OutcomeKey × List RR :=
  outcomeForType (records_map zone) (sslCE zone query) (ensureDot query)
    (sslRrset zone query) (sslIsDeleg zone query) (sslHasDname zone query) t

theorem ssl_singleton (zone : Zone) (query t : String) :
    symbolic_server_lookup zone query [t] =
      [{ types := [t]
         answer :=
           { type := (sslOutcome zone query t).1.otype
             target_servers :=
               if (sslOutcome zone query t).1.otype = "REF" then
                 some (sslOutcome zone query t).1.targets
               else none
             new_query :=
               if (sslOutcome zone query t).1.otype = "ANSQ" then
                 some (sslOutcome zone query t).1.newq
               else none }
         records := (sslOutcome zone query t).2 }] := by
  simp [symbolic_server_lookup, sslOutcome, sslCE, sslRrset, sslIsDeleg, sslHasDname,
    insertOutcome]

/-- C2 (amended): in single-server lookup with an exact match at a
non-delegation name, the CNAME rewrite takes precedence: whenever a CNAME
exists at the closest encloser and the queried type is not CNAME, the outcome
is AnsQ (even if records of the queried type also exist there); the outcome
is Ans with the records of the queried type when no CNAME exists there and
records of that type do. -/
theorem exact_match_outcome (zone : Zone) (query t : String)
    (hce : sslCE zone query = ensureDot query)
    (hdel : sslIsDeleg zone query = false) :
    ((alGet (sslRrset zone query) "CNAME").isSome = true → t ≠ "CNAME" →
      symbolic_server_lookup zone query [t] =
        [{ types := [t]
           answer :=
             { type := "ANSQ"
               target_servers := none
               new_query := some (ensureDot
                 (((((alGet (sslRrset zone query) "CNAME").getD []).head?).map
                   (fun r => r.rdata)).getD "")) }
           records := (alGet (sslRrset zone query) "CNAME").getD [] }]) ∧
    ((alGet (sslRrset zone query) "CNAME").isSome = false →
      (alGet (sslRrset zone query) t).isSome = true →
      symbolic_server_lookup zone query [t] =
        [{ types := [t]
           answer := { type := "ANS", target_servers := none, new_query := none }
           records := (alGet (sslRrset zone query) t).getD [] }]) := by
  constructor
  · intro hcname ht
    have hout : sslOutcome zone query t =
        (⟨"ANSQ", [],
          ensureDot (((((alGet (sslRrset zone query) "CNAME").getD []).head?).map
            (fun r => r.rdata)).getD "")⟩,
          (alGet (sslRrset zone query) "CNAME").getD []) := by
      unfold sslOutcome outcomeForType
      rw [hce]
      simp [hdel, hcname, ht]
    rw [ssl_singleton, hout]
    simp
  · intro hcname hsome
    have hout : sslOutcome zone query t =
        (⟨"ANS", [], ""⟩, (alGet (sslRrset zone query) t).getD []) := by
      unfold sslOutcome outcomeForType
      rw [hce]
      simp [hdel, hcname, hsome]
    rw [ssl_singleton, hout]
    simp

/-- C2 witness: the amended theorem applied at a concrete zone holding both a
CNAME and an A record at the query name, queried for A. -/
theorem exact_match_outcome_witness :
    sslCE zoneCnameAndA "a.example." = ensureDot "a.example." ∧
    sslIsDeleg zoneCnameAndA "a.example." = false ∧
    (alGet (sslRrset zoneCnameAndA "a.example.") "CNAME").isSome = true ∧
    symbolic_server_lookup zoneCnameAndA "a.example." ["A"] =
      [{ types := ["A"]
         answer := { type := "ANSQ", target_servers := none, new_query := some "b.example." }
         records := [{ name := "a.example.", ttl := 300, type := "CNAME", rdata := "b.example." }] }] := by
  refine ⟨by decide, by decide, by decide, ?_⟩
  have h := (exact_match_outcome zoneCnameAndA "a.example." "A" (by decide) (by decide)).1
    (by decide) (by decide)
  rw [h]
  decide

/-- C2 counterexample: a zone holding both a CNAME and an A record at the
query name.  The name is an exact match and not a delegation, records of the
queried type A exist there, yet the outcome is the rewrite ANSQ rather than
Ans, so the claim that records of the queried type always yield Ans, and
that AnsQ arises only when no record of the queried type exists, is false. -/
theorem exact_match_claim_counterexample :
    sslCE zoneCnameAndA "a.example." = ensureDot "a.example." ∧
    sslIsDeleg zoneCnameAndA "a.example." = false ∧
    (alGet (sslRrset zoneCnameAndA "a.example.") "A").isSome = true ∧
    (symbolic_server_lookup zoneCnameAndA "a.example." ["A"]).map (fun g => g.answer.type) =
      ["ANSQ"] := by
  decide

/-- A zone owning two CNAME records at the same name whose first target is
lexicographically larger than the second. -/
def zoneTwoCnames : Zone :=
  { origin := "example."
    records :=
      [ { name := "example.", ttl := 3600, type := "SOA",
          rdata := "ns1.example. admin.example. 1 1 1 1 1" }
      , { name := "a.example.", ttl := 300, type := "CNAME", rdata := "z.example." }
      , { name := "a.example.", ttl := 300, type := "CNAME", rdata := "a0.example." } ] }

/-- C6 (amended): when a name owns multiple CNAME (or DNAME) records, the
lookup deterministically rewrites to the target of the first record in zone
order (records_map order), not the lexicographically smallest  target; the
chosen target is recorded in the outcome (new_query) together with the
records used. -/
theorem rewrite_picks_first_record (zone : Zone) (query t : String) :
    (sslCE zone query = ensureDot query →
      sslIsDeleg zone query = false →
      (alGet (sslRrset zone query) "CNAME").isSome = true → t ≠ "CNAME" →
      symbolic_server_lookup zone query [t] =
        [{ types := [t]
           answer :=
             { type := "ANSQ"
               target_servers := none
               new_query := some (ensureDot
                 (((((alGet (sslRrset zone query) "CNAME").getD []).head?).map
                   (fun r => r.rdata)).getD "")) }
           records := (alGet (sslRrset zone query) "CNAME").getD [] }]) ∧
    (sslCE zone query ≠ ensureDot query →
      sslHasDname zone query = true →
      symbolic_server_lookup zone query [t] =
        [{ types := [t]
           answer :=
             { type := "ANSQ"
               target_servers := none
               new_query := some (PyStr.takePy (ensureDot query)
                   (PyStr.lenPy (ensureDot query) - PyStr.lenPy (sslCE zone query)) ++
                 ensureDot (((((alGet (sslRrset zone query) "DNAME").getD []).head?).map
                   (fun r => r.rdata)).getD "")) }
           records := (alGet (sslRrset zone query) "DNAME").getD [] }]) := by
  constructor
  · intro hce hdel hcname ht
    have hout : sslOutcome zone query t =
        (⟨"ANSQ", [],
          ensureDot (((((alGet (sslRrset zone query) "CNAME").getD []).head?).map
            (fun r => r.rdata)).getD "")⟩,
          (alGet (sslRrset zone query) "CNAME").getD []) := by
      unfold sslOutcome outcomeForType
      rw [hce]
      simp [hdel, hcname, ht]
    rw [ssl_singleton, hout]
    simp
  · intro hce hdname
    have hout : sslOutcome zone query t =
        (⟨"ANSQ", [],
          PyStr.takePy (ensureDot query)
              (PyStr.lenPy (ensureDot query) - PyStr.lenPy (sslCE zone query)) ++
            ensureDot (((((alGet (sslRrset zone query) "DNAME").getD []).head?).map
              (fun r => r.rdata)).getD "")⟩,
          (alGet (sslRrset zone query) "DNAME").getD []) := by
      unfold sslOutcome outcomeForType
      simp [hce, hdname]
    rw [ssl_singleton, hout]
    simp

/-- C6 witness: the amended theorem applied to a zone owning two CNAME
records; the rewrite target is that of the first record in zone order. -/
theorem rewrite_picks_first_record_witness :
    sslCE zoneTwoCnames "a.example." = ensureDot "a.example." ∧
    sslIsDeleg zoneTwoCnames "a.example." = false ∧
    (alGet (sslRrset zoneTwoCnames "a.example.") "CNAME").isSome = true ∧
    symbolic_server_lookup zoneTwoCnames "a.example." ["A"] =
      [{ types := ["A"]
         answer := { type := "ANSQ", target_servers := none, new_query := some "z.example." }
         records :=
           [ { name := "a.example.", ttl := 300, type := "CNAME", rdata := "z.example." }
           , { name := "a.example.", ttl := 300, type := "CNAME", rdata := "a0.example." } ] }] := by
  refine ⟨by decide, by decide, by decide, ?_⟩
  have h := (rewrite_picks_first_record zoneTwoCnames "a.example." "A").1
    (by decide) (by decide) (by decide) (by decide)
  rw [h]
  decide

/-- C6 counterexample: a name owning two CNAME records with targets
z.example. and a0.example. (in that zone order).  The lookup rewrites to
z.example., the first-listed target, although a0.example. is also a target
at that name and is lexicographically smaller, so the claim that the
lexicographically smallest target is chosen is false. -/
theorem rewrite_lex_smallest_counterexample :
    ((alGet (sslRrset zoneTwoCnames "a.example.") "CNAME").getD []).map (fun r => r.rdata) =
      ["z.example.", "a0.example."] ∧
    (symbolic_server_lookup zoneTwoCnames "a.example." ["A"]).map
      (fun g => g.answer.new_query) = [some "z.example."] ∧
    PyStr.strLt "a0.example." "z.example." = true ∧
    ("a0.example." : String) ≠ "z.example." := by
  decide

end GrootV1

namespace GrootV1

theorem mkEcs_proj (ds : List String) (c : Nat) (ts : List String) :
    (mkEcs ds c ts).map (fun ec => (ec.domain_sequence, ec.query_types)) =
      ts.map (fun t => (ds, [t])) := by
  induction ts generalizing c with
  | nil => simp [mkEcs]
  | cons t ts ih => simp [mkEcs, ih]

theorem mkEcs_domain (ds : List String) (c : Nat) (ts : List String) :
    ∀ ec ∈ mkEcs ds c ts, ec.domain_sequence = ds := by
  induction ts generalizing c with
  | nil => simp [mkEcs]
  | cons t ts ih =>
    intro ec hec
    rcases List.mem_cons.mp hec with rfl | h
    · rfl
    · exact ih _ ec h

theorem genLoop_cross (g : LabelGraph) (cm : List (String × List String))
    (dm : List (String × String)) :
    ∀ (fuel : Nat) (st : List TravState) (acc : List EquivalenceClass) (counter : Nat)
      (doms : List (List String)),
      acc.map (fun ec => (ec.domain_sequence, ec.query_types)) =
        doms.flatMap (fun d => SUPPORTED_QUERY_TYPES.map (fun t => (d, [t]))) →
      ∀ ecs, genLoop g cm dm fuel st acc counter = some ecs →
      ∃ doms' : List (List String), ecs.map (fun ec => (ec.domain_sequence, ec.query_types)) =
        doms'.flatMap (fun d => SUPPORTED_QUERY_TYPES.map (fun t => (d, [t]))) := by
  intro fuel
  induction fuel with
  | zero =>
    intro st acc counter doms hacc ecs h
    rcases st with _ | ⟨s, rest⟩
    · simp only [genLoop, Option.some.injEq] at h
      exact ⟨doms, h ▸ hacc⟩
    · simp [genLoop] at h
  | succ n ih =>
    intro st acc counter doms hacc ecs h
    rcases st with _ | ⟨s, rest⟩
    · simp only [genLoop, Option.some.injEq] at h
      exact ⟨doms, h ▸ hacc⟩
    · simp only [genLoop] at h
      split at h
      · exact ih rest acc counter doms hacc ecs h
      · split at h
        · exact ih rest acc counter doms hacc ecs h
        · refine ih _ _ _ (doms ++ [s.path.reverse.map segToString]) ?_ ecs h
          rw [List.map_append, hacc, mkEcs_proj, List.flatMap_append]
          simp

/-- C4 (amended): every emitted domain is cross-producted with exactly the
supported query-type list of step3, which is A, AAAA, NS, MX, TXT, CNAME,
SOA (DNAME is not among them): the emitted EC list is, up to the ec_id
counter, a concatenation of one block per domain holding one
single-type EC per supported type. -/
theorem ec_generation_cross_product (g : LabelGraph) (fuel : Nat)
    (ecs : List EquivalenceClass) (h : generate_equivalence_classes g fuel = some ecs) :
    ∃ doms : List (List String),
      ecs.map (fun ec => (ec.domain_sequence, ec.query_types)) =
        doms.flatMap (fun d => SUPPORTED_QUERY_TYPES.map (fun t => (d, [t]))) := by
  unfold generate_equivalence_classes at h
  rcases hr : findRoot g with _ | rid
  · rw [hr] at h
    simp only [Option.some.injEq] at h
    exact ⟨[], by simp [← h]⟩
  · rw [hr] at h
    exact genLoop_cross g _ _ fuel _ [] 0 [] (by simp) ecs h

/-- A one-node label graph holding only the root. -/
def labelGraphRootOnly : LabelGraph :=
  { nodes := [("n0", { id := "n0", label := ".", is_wildcard := false })]
    edges := [] }

/-- The EC list generated for the one-node label graph. -/
def ecsRootOnly : List EquivalenceClass :=
  [ ⟨1, ["."], ["A"]⟩, ⟨2, ["."], ["AAAA"]⟩, ⟨3, ["."], ["NS"]⟩, ⟨4, ["."], ["MX"]⟩,
    ⟨5, ["."], ["TXT"]⟩, ⟨6, ["."], ["CNAME"]⟩, ⟨7, ["."], ["SOA"]⟩ ]

/-- C4 witness: the amended theorem applied to the one-node label graph. -/
theorem ec_generation_cross_product_witness :
    generate_equivalence_classes labelGraphRootOnly 5 = some ecsRootOnly ∧
    ∃ doms : List (List String),
      ecsRootOnly.map (fun ec => (ec.domain_sequence, ec.query_types)) =
        doms.flatMap (fun d => SUPPORTED_QUERY_TYPES.map (fun t => (d, [t]))) :=
  ⟨by decide, ec_generation_cross_product labelGraphRootOnly 5 ecsRootOnly (by decide)⟩

/-- C4 counterexample: on the one-node label graph the generator emits one EC
for each of the seven supported types and none for DNAME, so the claimed
cross product with the eight-type set including DNAME is false. -/
theorem ec_generation_no_dname_counterexample :
    generate_equivalence_classes labelGraphRootOnly 5 = some ecsRootOnly ∧
    ecsRootOnly ≠ [] ∧
    (∀ ec ∈ ecsRootOnly, "DNAME" ∉ ec.query_types) ∧
    SUPPORTED_QUERY_TYPES = ["A", "AAAA", "NS", "MX", "TXT", "CNAME", "SOA"] := by
  decide

theorem genLoop_len_bound (g : LabelGraph) (cm : List (String × List String))
    (dm : List (String × String)) :
    ∀ (fuel : Nat) (st : List TravState) (acc : List EquivalenceClass) (counter : Nat),
      (∀ ec ∈ acc, ec.domain_sequence.length ≤ MAX_DNS_LENGTH) →
      ∀ ecs, genLoop g cm dm fuel st acc counter = some ecs →
      ∀ ec ∈ ecs, ec.domain_sequence.length ≤ MAX_DNS_LENGTH := by
  intro fuel
  induction fuel with
  | zero =>
    intro st acc counter hacc ecs h
    rcases st with _ | ⟨s, rest⟩
    · simp only [genLoop, Option.some.injEq] at h
      exact h ▸ hacc
    · simp [genLoop] at h
  | succ n ih =>
    intro st acc counter hacc ecs h
    rcases st with _ | ⟨s, rest⟩
    · simp only [genLoop, Option.some.injEq] at h
      exact h ▸ hacc
    · simp only [genLoop] at h
      split at h
      · exact ih rest acc counter hacc ecs h
      · split at h
        · exact ih rest acc counter hacc ecs h
        · next hlen =>
          refine ih _ _ _ ?_ ecs h
          intro ec hec
          rcases List.mem_append.mp hec with hec | hec
          · exact hacc ec hec
          · rw [mkEcs_domain _ _ _ ec hec]
            simp only [List.length_map, List.length_reverse]
            omega

end GrootV1


namespace GrootV1

/- Termination of the EC-generation DFS: a branch either lengthens its path
(bounded by MAX_DNS_LENGTH) or, via a DNAME edge, shrinks the set of graph
nodes not yet recorded in its history at the current path length.  Summing an
exponential of this measure over the stack yields a strictly decreasing
natural number. -/

/-- The per-state measure of the DFS. -/
def travMeasure (g : LabelGraph) (s : TravState) : Nat :=
  (21 - min s.path.length 21) * (g.nodes.length + 1) +
    (g.nodes.map Prod.fst).countP (fun m => !(alGet s.history m == some s.path.length))

/-- The branching base: one more than the push bound of one iteration. -/
def stackBase (g : LabelGraph) : Nat := g.edges.length + 2

/-- The stack measure: the sum of base-to-the-measure over all entries. -/
def stackMeasure (g : LabelGraph) (st : List TravState) : Nat :=
  (st.map (fun s => stackBase g ^ travMeasure g s)).sum

theorem measure_arith (L N c c' : Nat) (hL : L ≤ 20) (hc' : c' ≤ N) :
    (21 - min (L + 1) 21) * (N + 1) + c' < (21 - min L 21) * (N + 1) + c := by
  have h1 : min (L + 1) 21 = L + 1 := by omega
  have h2 : min L 21 = L := by omega
  rw [h1, h2]
  have hexp : (21 - L) * (N + 1) = (21 - (L + 1)) * (N + 1) + (N + 1) := by
    rw [show 21 - L = (21 - (L + 1)) + 1 by omega]
    ring
  omega

theorem countP_le_nodes (g : LabelGraph) (p : String → Bool) :
    (g.nodes.map Prod.fst).countP p ≤ g.nodes.length := by
  calc (g.nodes.map Prod.fst).countP p ≤ (g.nodes.map Prod.fst).length := List.countP_le_length _
    _ = g.nodes.length := by simp

theorem travMeasure_lt_of_longer (g : LabelGraph) (s s' : TravState)
    (hlen : s.path.length ≤ MAX_DNS_LENGTH) (hplen : s'.path.length = s.path.length + 1) :
    travMeasure g s' < travMeasure g s := by
  unfold travMeasure
  rw [hplen]
  exact measure_arith s.path.length g.nodes.length _ _
    (by unfold MAX_DNS_LENGTH at hlen; omega) (countP_le_nodes g _)

theorem travMeasure_lt_of_record (g : LabelGraph) (s : TravState) (tid : String)
    (hmem : s.node ∈ g.nodes.map Prod.fst)
    (hne : ¬(alGet s.history s.node = some s.path.length)) :
    travMeasure g ⟨tid, s.path, alSet s.history s.node s.path.length⟩ < travMeasure g s := by
  unfold travMeasure
  dsimp only
  have hcnt : (g.nodes.map Prod.fst).countP
      (fun m => !(alGet (alSet s.history s.node s.path.length) m == some s.path.length)) <
      (g.nodes.map Prod.fst).countP (fun m => !(alGet s.history m == some s.path.length)) := by
    apply countP_lt_of_flip _ _ _ s.node hmem
    · intro x hx
      by_cases hxs : x = s.node
      · subst hxs
        rw [alGet_alSet_self] at hx
        simp at hx
      · rwa [alGet_alSet_ne _ _ _ _ hxs] at hx
    · rw [alGet_alSet_self]
      simp
    · simpa using hne
  omega

theorem buildChildrenMap_bound (edges : List LabelGraphEdge) (k : String) :
    ((alGet (buildChildrenMap edges) k).getD []).length ≤ edges.length := by
  suffices h : ∀ (m : List (String × List String)) (n : Nat),
      (∀ k', ((alGet m k').getD []).length ≤ n) →
      ∀ k', ((alGet (edges.foldl (fun m e =>
        if e.edge_type = "child" then alModify m e.source_id (fun l => l ++ [e.target_id]) []
        else m) m) k').getD []).length ≤ n + edges.length by
    have := h [] 0 (by intro k'; simp [alGet]) k
    simpa [buildChildrenMap] using this
  induction edges with
  | nil => intro m n hm k'; simpa using hm k'
  | cons e es ih =>
    intro m n hm k'
    simp only [List.foldl_cons]
    have hstep : ∀ k', ((alGet (if e.edge_type = "child" then
        alModify m e.source_id (fun l => l ++ [e.target_id]) [] else m) k').getD []).length ≤
        n + 1 := by
      intro k'
      split
      · by_cases hk : k' = e.source_id
        · rw [hk, alGet_alModify_self]
          have hb := hm e.source_id
          simp only [Option.getD_some, List.length_append, List.length_cons, List.length_nil]
          omega
        · rw [alGet_alModify_ne _ _ _ _ _ hk]
          have := hm k'
          omega
      · have := hm k'
        omega
    have := ih _ (n + 1) hstep k'
    simpa [Nat.add_assoc, Nat.add_comm, Nat.add_left_comm] using this

theorem childPush_length (g : LabelGraph) (cm : List (String × List String)) (s : TravState)
    (h : List (String × Nat)) :
    (childPush g cm s h).length ≤ ((alGet cm s.node).getD []).length := by
  unfold childPush childInfo
  simp only [List.length_map]
  exact List.length_filterMap_le _ _

theorem mem_childPush (g : LabelGraph) (cm : List (String × List String)) (s : TravState)
    (h : List (String × Nat)) (t : TravState) (ht : t ∈ childPush g cm s h) :
    t.node ∈ g.nodes.map Prod.fst ∧ t.path.length = s.path.length + 1 ∧ t.history = h := by
  unfold childPush at ht
  rcases List.mem_map.mp ht with ⟨p, hp, rfl⟩
  refine ⟨?_, by simp, rfl⟩
  unfold childInfo at hp
  rcases List.mem_filterMap.mp hp with ⟨cid, _, hmap⟩
  rcases Option.map_eq_some'.mp hmap with ⟨nd, hget, hpe⟩
  have hmem : cid ∈ g.nodes.map Prod.fst := alGet_key_mem _ _ (by simp [hget])
  rw [← hpe]
  exact hmem

theorem dnamePush_length (g : LabelGraph) (dm : List (String × String)) (s : TravState)
    (h : List (String × Nat)) : (dnamePush g dm s h).length ≤ 1 := by
  unfold dnamePush
  split
  · split <;> simp
  · simp

theorem mem_dnamePush (g : LabelGraph) (dm : List (String × String)) (s : TravState)
    (h : List (String × Nat)) (t : TravState) (ht : t ∈ dnamePush g dm s h) :
    t.node ∈ g.nodes.map Prod.fst ∧ t.path = s.path ∧ t.history = h := by
  unfold dnamePush at ht
  split at ht
  · next tid heq =>
    by_cases hts : (alGet g.nodes tid).isSome
    · rw [if_pos hts] at ht
      simp only [List.mem_singleton] at ht
      subst ht
      exact ⟨alGet_key_mem _ _ hts, rfl, rfl⟩
    · rw [if_neg hts] at ht
      simp at ht
  · simp at ht

theorem stackMeasure_cons (g : LabelGraph) (s : TravState) (rest : List TravState) :
    stackMeasure g (s :: rest) = stackBase g ^ travMeasure g s + stackMeasure g rest := by
  simp [stackMeasure]

theorem stackMeasure_append (g : LabelGraph) (a b : List TravState) :
    stackMeasure g (a ++ b) = stackMeasure g a + stackMeasure g b := by
  simp [stackMeasure]

theorem stackMeasure_reverse (g : LabelGraph) (a : List TravState) :
    stackMeasure g a.reverse = stackMeasure g a := by
  unfold stackMeasure
  rw [List.map_reverse, List.sum_reverse]

theorem stackMeasure_lt_fuel_tail (g : LabelGraph) (s : TravState) (rest : List TravState)
    (n : Nat) (hm : stackMeasure g (s :: rest) < n + 1) : stackMeasure g rest < n := by
  rw [stackMeasure_cons] at hm
  have : 0 < stackBase g ^ travMeasure g s := Nat.pos_pow_of_pos _ (by unfold stackBase; omega)
  omega

theorem stackMeasure_block_lt (g : LabelGraph) (pushes : List TravState) (s : TravState)
    (hlen : pushes.length ≤ stackBase g - 1)
    (hlt : ∀ t ∈ pushes, travMeasure g t < travMeasure g s) :
    stackMeasure g pushes < stackBase g ^ travMeasure g s := by
  have heq : stackMeasure g pushes = ((pushes.map (travMeasure g)).map (stackBase g ^ ·)).sum := by
    unfold stackMeasure
    rw [List.map_map]
    rfl
  rw [heq]
  apply sumPowLt
  · unfold stackBase
    omega
  · simpa using hlen
  · intro x hx
    rcases List.mem_map.mp hx with ⟨t, ht, rfl⟩
    exact hlt t ht

theorem genLoop_completes (g : LabelGraph) :
    ∀ (fuel : Nat) (st : List TravState) (acc : List EquivalenceClass) (counter : Nat),
      (∀ s ∈ st, s.node ∈ g.nodes.map Prod.fst) →
      stackMeasure g st < fuel →
      (genLoop g (buildChildrenMap g.edges) (buildDnameMap g.edges) fuel st acc counter).isSome := by
  intro fuel
  induction fuel with
  | zero =>
    intro st acc counter _ hm
    exact absurd hm (Nat.not_lt_zero _)
  | succ n ih =>
    intro st acc counter hok hm
    rcases st with _ | ⟨s, rest⟩
    · simp [genLoop]
    · have hrest : ∀ t ∈ rest, t.node ∈ g.nodes.map Prod.fst :=
        fun t ht => hok t (List.mem_cons_of_mem _ ht)
      have hsmem : s.node ∈ g.nodes.map Prod.fst := hok s (List.mem_cons_self _ _)
      simp only [genLoop]
      split
      · exact ih rest acc counter hrest (stackMeasure_lt_fuel_tail g s rest n hm)
      · next hvis =>
        split
        · exact ih rest acc counter hrest (stackMeasure_lt_fuel_tail g s rest n hm)
        · next hlen =>
          apply ih
          · intro t ht
            rcases List.mem_append.mp ht with ht | ht
            · rcases List.mem_append.mp (List.mem_reverse.mp ht) with ht | ht
              · exact (mem_childPush g _ s _ t ht).1
              · exact (mem_dnamePush g _ s _ t ht).1
            · exact hrest t ht
          · rw [stackMeasure_append, stackMeasure_reverse, stackMeasure_append]
            have hlen' : s.path.length ≤ MAX_DNS_LENGTH := by omega
            have hchild : ∀ t ∈ childPush g (buildChildrenMap g.edges) s
                (alSet s.history s.node s.path.length), travMeasure g t < travMeasure g s := by
              intro t ht
              exact travMeasure_lt_of_longer g s t hlen' (mem_childPush g _ s _ t ht).2.1
            have hdname : ∀ t ∈ dnamePush g (buildDnameMap g.edges) s
                (alSet s.history s.node s.path.length), travMeasure g t < travMeasure g s := by
              intro t ht
              rcases mem_dnamePush g _ s _ t ht with ⟨_, hpath, hhist⟩
              have : t = ⟨t.node, s.path, alSet s.history s.node s.path.length⟩ := by
                cases t
                simp_all
              rw [this]
              exact travMeasure_lt_of_record g s t.node hsmem hvis
            have hpushlen : (childPush g (buildChildrenMap g.edges) s
                  (alSet s.history s.node s.path.length) ++
                dnamePush g (buildDnameMap g.edges) s
                  (alSet s.history s.node s.path.length)).length ≤ stackBase g - 1 := by
              rw [List.length_append]
              have h1 : (childPush g (buildChildrenMap g.edges) s
                  (alSet s.history s.node s.path.length)).length ≤ g.edges.length :=
                le_trans (childPush_length g _ s _) (buildChildrenMap_bound g.edges s.node)
              have h2 := dnamePush_length g (buildDnameMap g.edges) s
                (alSet s.history s.node s.path.length)
              unfold stackBase
              omega
            have hblock := stackMeasure_block_lt g
              (childPush g (buildChildrenMap g.edges) s (alSet s.history s.node s.path.length) ++
                dnamePush g (buildDnameMap g.edges) s (alSet s.history s.node s.path.length)) s
              hpushlen
              (by
                intro t ht
                rcases List.mem_append.mp ht with ht | ht
                · exact hchild t ht
                · exact hdname t ht)
            rw [stackMeasure_append] at hblock
            rw [stackMeasure_cons] at hm
            omega

/-- C7: EC generation terminates on every finite label graph, including
graphs whose DNAME edges form cycles (some fuel always suffices for the
worklist to drain), and no emitted EC has a domain sequence longer than
MAX_DNS_LENGTH (default 20) elements. -/
theorem ec_generation_terminates_and_bounded :
    (∀ g : LabelGraph, ∃ fuel, (generate_equivalence_classes g fuel).isSome) ∧
    (∀ (g : LabelGraph) (fuel : Nat) (ecs : List EquivalenceClass),
      generate_equivalence_classes g fuel = some ecs →
      ∀ ec ∈ ecs, ec.domain_sequence.length ≤ MAX_DNS_LENGTH) := by
  constructor
  · intro g
    have key : ∀ (st : List TravState), (∀ s ∈ st, s.node ∈ g.nodes.map Prod.fst) →
        ∃ fuel, (genLoop g (buildChildrenMap g.edges) (buildDnameMap g.edges)
          fuel st [] 0).isSome :=
      fun st hok => ⟨stackMeasure g st + 1,
        genLoop_completes g (stackMeasure g st + 1) st [] 0 hok (Nat.lt_succ_self _)⟩
    unfold generate_equivalence_classes
    rcases hr : findRoot g with _ | rid
    · exact ⟨0, by simp⟩
    · apply key
      intro s hs
      simp only [List.mem_singleton] at hs
      subst hs
      unfold findRoot at hr
      rcases Option.map_eq_some'.mp hr with ⟨p, hp, hpe⟩
      have hpm := List.mem_of_find?_eq_some hp
      rw [← hpe]
      exact List.mem_map.mpr ⟨p, hpm, rfl⟩
  · intro g fuel ecs h ec hec
    unfold generate_equivalence_classes at h
    rcases hr : findRoot g with _ | rid
    · rw [hr] at h
      simp only [Option.some.injEq] at h
      rw [← h] at hec
      simp at hec
    · rw [hr] at h
      exact genLoop_len_bound g _ _ fuel _ [] 0 (by simp) ecs h ec hec

/-- A label graph whose DNAME edges form a two-cycle. -/
def labelGraphDnameCycle : LabelGraph :=
  { nodes := [("n0", { id := "n0", label := ".", is_wildcard := false }),
              ("na", { id := "na", label := "a", is_wildcard := false }),
              ("nb", { id := "nb", label := "b", is_wildcard := false })]
    edges := [ { source_id := "n0", target_id := "na", edge_type := "child" },
               { source_id := "n0", target_id := "nb", edge_type := "child" },
               { source_id := "na", target_id := "nb", edge_type := "dname" },
               { source_id := "nb", target_id := "na", edge_type := "dname" } ] }

/-- C7 witness: on a label graph with a DNAME cycle, fuel 100 drains the
worklist and every emitted EC respects the length bound, by the theorem. -/
theorem ec_generation_terminates_and_bounded_witness :
    (generate_equivalence_classes labelGraphDnameCycle 100).isSome = true ∧
    (∀ ec ∈ (generate_equivalence_classes labelGraphDnameCycle 100).getD [],
      ec.domain_sequence.length ≤ MAX_DNS_LENGTH) := by
  have hsome : (generate_equivalence_classes labelGraphDnameCycle 100).isSome = true := by decide
  refine ⟨hsome, ?_⟩
  intro ec hec
  rcases Option.isSome_iff_exists.mp hsome with ⟨ecs, hecs⟩
  have hb := ec_generation_terminates_and_bounded.2 labelGraphDnameCycle 100 ecs hecs
  apply hb
  rw [hecs] at hec
  simpa using hec

end GrootV1

namespace Baseline

/- Termination of Resolver.resolve: every enqueued successor carries depth
one larger than its parent, and states at depth MAX_RESOLUTION_DEPTH get no
successors, so an exponential sum over the queue decreases strictly. -/

/-- Total number of records hosted in the configuration. -/
def totalRecs (cfg : Config) : Nat :=
  (cfg.zones_by_ns.map (fun p => (p.2.map (fun z => z.records.length)).sum)).sum

/-- Total number of records in the address index. -/
def addrTotal (cfg : Config) : Nat :=
  (cfg.address_records.map (fun p => p.2.length)).sum

/-- A bound on the record list of any answer serverLookup can produce. -/
def refBound (cfg : Config) : Nat := 1 + totalRecs cfg * (1 + addrTotal cfg)

/-- The branching base of the resolve worklist. -/
def qBase (cfg : Config) : Nat := cfg.top_name_servers.length + refBound cfg + 2

/-- The queue measure. -/
def queueMeasure (cfg : Config) (q : List QItem) : Nat :=
  (q.map (fun it => qBase cfg ^ (16 - it.depth))).sum

theorem zone_records_le (cfg : Config) (ns : Dom) (zl : List Zone) (z : Zone)
    (h1 : alGet cfg.zones_by_ns ns = some zl) (h2 : z ∈ zl) :
    z.records.length ≤ totalRecs cfg := by
  have hmem := alGet_mem _ _ _ h1
  have hin : z.records.length ≤ (zl.map (fun z => z.records.length)).sum :=
    List.single_le_sum (by intro x _; exact Nat.zero_le x) _ (List.mem_map.mpr ⟨z, h2, rfl⟩)
  have hout : (zl.map (fun z => z.records.length)).sum ≤ totalRecs cfg :=
    List.single_le_sum (by intro x _; exact Nat.zero_le x) _
      (List.mem_map.mpr ⟨(ns, zl), hmem, rfl⟩)
  omega

theorem addr_lookup_le (cfg : Config) (d : Dom) :
    ((alGet cfg.address_records d).getD []).length ≤ addrTotal cfg := by
  rcases h : alGet cfg.address_records d with _ | l
  · simp
  · have hmem := alGet_mem _ _ _ h
    have : l.length ≤ addrTotal cfg :=
      List.single_le_sum (by intro x _; exact Nat.zero_le x) _
        (List.mem_map.mpr ⟨(d, l), hmem, rfl⟩)
    simpa using this

theorem glue_fold_le (cfg : Config) (zd : Dom) (l : List RR) :
    ∀ acc : List RR,
    (l.foldl (fun acc nr =>
      if isPrefixDom (valToDom nr.value) zd then
        listUnion acc ((alGet cfg.address_records (valToDom nr.value)).getD [])
      else acc) acc).length ≤ acc.length + l.length * addrTotal cfg := by
  induction l with
  | nil => intro acc; simp
  | cons nr rest ih =>
    intro acc
    simp only [List.foldl_cons]
    by_cases hp : isPrefixDom (valToDom nr.value) zd
    · rw [if_pos hp]
      have h1 := ih (listUnion acc ((alGet cfg.address_records (valToDom nr.value)).getD []))
      have h2 := listUnion_length acc ((alGet cfg.address_records (valToDom nr.value)).getD [])
      have h3 := addr_lookup_le cfg (valToDom nr.value)
      simp only [List.length_cons]
      calc _ ≤ (listUnion acc ((alGet cfg.address_records (valToDom nr.value)).getD [])).length +
            rest.length * addrTotal cfg := h1
        _ ≤ acc.length + addrTotal cfg + rest.length * addrTotal cfg := by omega
        _ ≤ acc.length + (rest.length + 1) * addrTotal cfg := by
            have : (rest.length + 1) * addrTotal cfg =
              rest.length * addrTotal cfg + addrTotal cfg := by ring
            omega
    · rw [if_neg hp]
      have h1 := ih acc
      have : (rest.length : Nat) * addrTotal cfg ≤ (rest.length + 1) * addrTotal cfg :=
        Nat.mul_le_mul_right _ (by omega)
      simp only [List.length_cons]
      omega

theorem delegation_records_le (cfg : Config) (records : List RR) (z : Zone) :
    ((delegationA cfg records z).records).length ≤ records.length * (1 + addrTotal cfg) := by
  unfold delegationA
  have hns : (records.filter (fun r => r.type = "NS")).length ≤ records.length :=
    List.length_filter_le _ _
  have hglue := glue_fold_le cfg z.domain (records.filter (fun r => r.type = "NS")) []
  have hu := listUnion_length (records.filter (fun r => r.type = "NS"))
    ((records.filter (fun r => r.type = "NS")).foldl (fun acc nr =>
      if isPrefixDom (valToDom nr.value) z.domain then
        listUnion acc ((alGet cfg.address_records (valToDom nr.value)).getD [])
      else acc) [])
  simp only [List.length_nil, Nat.zero_add] at hglue
  have hmul : (records.filter (fun r => r.type = "NS")).length * addrTotal cfg ≤
      records.length * addrTotal cfg := Nat.mul_le_mul_right _ hns
  have hexp : records.length * (1 + addrTotal cfg) =
      records.length + records.length * addrTotal cfg := by ring
  simp only []
  omega

theorem soaList_length_le (z : Zone) : (soaList z).length ≤ 1 := by
  unfold soaList
  rcases h : z.records.find? (fun r => r.type = "SOA") with _ | r
  · rw [h]
    simp
  · rw [h]
    simp

theorem getRecordsA_delegation (cfg : Config) (records : List RR) (z : Zone) :
    getRecordsA (delegationA cfg records z) = (delegationA cfg records z).records := by
  unfold delegationA getRecordsA
  simp

theorem rrLookup_records_le (cfg : Config) (records : List RR) (q : Query) (z : Zone) :
    (getRecordsA (rrLookup cfg records q z)).length ≤
      1 + records.length * (1 + addrTotal cfg) := by
  have hsoa := soaList_length_le z
  have hdel := delegation_records_le cfg records z
  have hself : records.length ≤ records.length * (1 + addrTotal cfg) :=
    Nat.le_mul_of_pos_right _ (by omega)
  rcases records with _ | ⟨r0, rs⟩
  · simp only [rrLookup, getRecordsA]
    simp only [List.length_nil]
    have : (soaList z).length ≤ 1 := hsoa
    simp
    omega
  · simp only [rrLookup]
    by_cases h1 : r0.domain = q.domain
    · rw [if_pos h1]
      by_cases h2 : q.qtype ∈ (r0 :: rs).map RR.type
      · rw [if_pos h2]
        have := List.length_filter_le (fun r : RR => decide (r.type = q.qtype)) (r0 :: rs)
        simp [getRecordsA] <;> (simp only [List.length_cons] at *; omega)
      · rw [if_neg h2]
        by_cases h3 : "CNAME" ∈ (r0 :: rs).map RR.type
        · rw [if_pos h3]
          split
          · simp [getRecordsA] <;> (simp only [List.length_cons] at *; omega)
          · simp [getRecordsA] <;> (simp only [List.length_cons] at *; omega)
        · rw [if_neg h3]
          by_cases h4 : (decide ("NS" ∈ (r0 :: rs).map RR.type) && decide (r0.domain ≠ z.domain)) = true
          · rw [if_pos h4]
            rw [getRecordsA_delegation]
            omega
          · rw [if_neg h4]
            simp [getRecordsA] <;> (simp only [List.length_cons] at *; omega)
    · rw [if_neg h1]
      by_cases h5 : ((isWildcardDom r0.domain &&
            isPrefixDom q.domain (parseDomainStr (PyStr.dropTwoPy (renderDom r0.domain))) &&
            !(z.records.any (fun r => decide (r.domain = q.domain)))) &&
          decide (q.qtype ∈ (r0 :: rs).map RR.type)) = true
      · rw [if_pos h5]
        simp [getRecordsA] <;> (simp only [List.length_cons] at *; omega)
      · rw [if_neg h5]
        by_cases h6 : ((isWildcardDom r0.domain &&
              isPrefixDom q.domain (parseDomainStr (PyStr.dropTwoPy (renderDom r0.domain))) &&
              !(z.records.any (fun r => decide (r.domain = q.domain)))) &&
            decide ("CNAME" ∈ (r0 :: rs).map RR.type)) = true
        · rw [if_pos h6]
          split
          · simp [getRecordsA] <;> (simp only [List.length_cons] at *; omega)
          · simp [getRecordsA] <;> (simp only [List.length_cons] at *; omega)
        · rw [if_neg h6]
          by_cases h7 : (decide ("DNAME" ∈ (r0 :: rs).map RR.type) &&
              isPrefixDom r0.domain q.domain) = true
          · rw [if_pos h7]
            split
            · simp [getRecordsA] <;> (simp only [List.length_cons] at *; omega)
            · simp [getRecordsA] <;> (simp only [List.length_cons] at *; omega)
          · rw [if_neg h7]
            by_cases h8 : (decide ("NS" ∈ (r0 :: rs).map RR.type) &&
                isPrefixDom r0.domain q.domain) = true
            · rw [if_pos h8]
              rw [getRecordsA_delegation]
              omega
            · rw [if_neg h8]
              simp [getRecordsA] <;> (simp only [List.length_cons] at *; omega)

theorem bestZoneStep_cases (q : Query) (acc : Option Zone) (z : Zone) :
    bestZoneStep q acc z = acc ∨ bestZoneStep q acc z = some z := by
  unfold bestZoneStep
  by_cases hp : isPrefixDom q.domain z.domain = true
  · rw [if_pos hp]
    rcases acc with _ | bz
    · exact Or.inr rfl
    · by_cases hl : z.domain.length > bz.domain.length
      · refine Or.inr ?_
        show (if z.domain.length > bz.domain.length then some z else some bz) = some z
        rw [if_pos hl]
      · refine Or.inl ?_
        show (if z.domain.length > bz.domain.length then some z else some bz) = some bz
        rw [if_neg hl]
  · rw [if_neg hp]
    exact Or.inl rfl

theorem bestZone_fold_mem (q : Query) :
    ∀ (zones : List Zone) (acc : Option Zone) (z : Zone),
      zones.foldl (bestZoneStep q) acc = some z → acc = some z ∨ z ∈ zones := by
  intro zones
  induction zones with
  | nil => intro acc z h; exact Or.inl h
  | cons zh rest ih =>
    intro acc z h
    simp only [List.foldl_cons] at h
    rcases bestZoneStep_cases q acc zh with he | he
    · rw [he] at h
      rcases ih acc z h with h' | h'
      · exact Or.inl h'
      · exact Or.inr (List.mem_cons_of_mem _ h')
    · rw [he] at h
      rcases ih _ z h with h' | h'
      · simp only [Option.some.injEq] at h'
        exact Or.inr (h' ▸ List.mem_cons_self _ _)
      · exact Or.inr (List.mem_cons_of_mem _ h')

theorem serverLookup_records_le (cfg : Config) (ns : Dom) (q : Query) :
    (getRecordsA (serverLookup cfg ns q)).length ≤ refBound cfg := by
  have hrb : 1 ≤ refBound cfg := by unfold refBound; omega
  have hsoa := soaList_length_le
  simp only [serverLookup]
  by_cases hz : (alGet cfg.zones_by_ns ns).getD [] = []
  · rw [if_pos hz]
    simp [getRecordsA]
  · rw [if_neg hz]
    rcases hb : bestZone ((alGet cfg.zones_by_ns ns).getD []) q with _ | z
    · show (getRecordsA ⟨"Refused", [], none⟩).length ≤ refBound cfg
      simp [getRecordsA]
    · show (getRecordsA (zoneLookup cfg z q)).length ≤ refBound cfg
      have hzmem : z ∈ (alGet cfg.zones_by_ns ns).getD [] := by
        unfold bestZone at hb
        rcases bestZone_fold_mem q _ none z hb with h | h
        · cases h
        · exact h
      have hzl : z.records.length ≤ totalRecs cfg := by
        rcases hget : alGet cfg.zones_by_ns ns with _ | zl
        · rw [hget] at hzmem
          simp at hzmem
        · rw [hget] at hzmem
          exact zone_records_le cfg ns zl z hget (by simpa using hzmem)
      simp only [zoneLookup]
      by_cases hrec : z.records = []
      · rw [if_pos hrec]
        show (getRecordsA ⟨"NX", soaList z, none⟩).length ≤ refBound cfg
        have := hsoa z
        simp only [getRecordsA]
        unfold refBound
        simp
        omega
      · rw [if_neg hrec]
        have hr := rrLookup_records_le cfg
          (z.records.filter (fun r => rank r q z.domain = maxRank z.records q z.domain)) q z
        have hflen : (z.records.filter
            (fun r => rank r q z.domain = maxRank z.records q z.domain)).length ≤
            totalRecs cfg := le_trans (List.length_filter_le _ _) hzl
        have hmul : (z.records.filter
            (fun r => rank r q z.domain = maxRank z.records q z.domain)).length *
            (1 + addrTotal cfg) ≤ totalRecs cfg * (1 + addrTotal cfg) :=
          Nat.mul_le_mul_right _ hflen
        unfold refBound
        omega

theorem successors_length_le (cfg : Config) (ns : Dom) (q : Query) (a : DNSAnswer) (d : Nat)
    (hge : (getRecordsA a).length ≤ refBound cfg) :
    (successors cfg ns q a d).length ≤ qBase cfg - 1 := by
  unfold successors
  unfold qBase
  have hrb : 1 ≤ refBound cfg := by unfold refBound; omega
  split
  · split
    · split
      · simp
      · simp
        omega
    · simp
  · split
    · have := List.length_filterMap_le (fun r : RR =>
        if r.type = "NS" then some (⟨some ⟨ns, q⟩, valToDom r.value, q, d + 1⟩ : QItem) else none)
        (getRecordsA a)
      omega
    · simp

theorem successors_depth (cfg : Config) (ns : Dom) (q : Query) (a : DNSAnswer) (d : Nat) :
    ∀ it ∈ successors cfg ns q a d, it.depth = d + 1 := by
  intro it hit
  unfold successors at hit
  split at hit
  · split at hit
    · split at hit
      · simp only [List.mem_singleton] at hit
        rw [hit]
      · rcases List.mem_map.mp hit with ⟨t, _, rfl⟩
        rfl
    · simp at hit
  · split at hit
    · rcases List.mem_filterMap.mp hit with ⟨r, _, hr⟩
      split at hr
      · simp only [Option.some.injEq] at hr
        rw [← hr]
      · cases hr
    · simp at hit

theorem queueMeasure_cons (cfg : Config) (it : QItem) (rest : List QItem) :
    queueMeasure cfg (it :: rest) = qBase cfg ^ (16 - it.depth) + queueMeasure cfg rest := by
  simp [queueMeasure]

theorem queueMeasure_append (cfg : Config) (a b : List QItem) :
    queueMeasure cfg (a ++ b) = queueMeasure cfg a + queueMeasure cfg b := by
  simp [queueMeasure]

theorem queueMeasure_tail_lt (cfg : Config) (it : QItem) (rest : List QItem) (n : Nat)
    (hm : queueMeasure cfg (it :: rest) < n + 1) : queueMeasure cfg rest < n := by
  rw [queueMeasure_cons] at hm
  have : 0 < qBase cfg ^ (16 - it.depth) := Nat.pos_pow_of_pos _ (by unfold qBase; omega)
  omega

theorem resolveLoop_completes (cfg : Config) :
    ∀ (fuel : Nat) (queue : List QItem) (g : IGGraph) (visited : List (Dom × Query × Nat)),
      (∀ it ∈ queue, it.depth ≤ MAX_RESOLUTION_DEPTH) →
      queueMeasure cfg queue < fuel →
      (resolveLoop cfg fuel queue g visited).isSome := by
  intro fuel
  induction fuel with
  | zero =>
    intro queue g visited _ hm
    exact absurd hm (Nat.not_lt_zero _)
  | succ n ih =>
    intro queue g visited hd hm
    rcases queue with _ | ⟨it, rest⟩
    · simp [resolveLoop]
    · have hrest : ∀ t ∈ rest, t.depth ≤ MAX_RESOLUTION_DEPTH :=
        fun t ht => hd t (List.mem_cons_of_mem _ ht)
      have hit : it.depth ≤ MAX_RESOLUTION_DEPTH := hd it (List.mem_cons_self _ _)
      simp only [resolveLoop]
      split
      · exact ih rest _ _ hrest (queueMeasure_tail_lt cfg it rest n hm)
      · split
        · exact ih rest _ _ hrest (queueMeasure_tail_lt cfg it rest n hm)
        · next hdep =>
          apply ih
          · intro t ht
            rcases List.mem_append.mp ht with ht | ht
            · exact hrest t ht
            · rw [successors_depth cfg it.ns it.q _ it.depth t ht]
              unfold MAX_RESOLUTION_DEPTH at hdep ⊢
              omega
          · rw [queueMeasure_append]
            have hsucc : queueMeasure cfg
                (successors cfg it.ns it.q (serverLookup cfg it.ns it.q) it.depth) <
                qBase cfg ^ (16 - it.depth) := by
              have heq : queueMeasure cfg
                  (successors cfg it.ns it.q (serverLookup cfg it.ns it.q) it.depth) =
                  (((successors cfg it.ns it.q (serverLookup cfg it.ns it.q) it.depth).map
                    (fun t => 16 - t.depth)).map (qBase cfg ^ ·)).sum := by
                unfold queueMeasure
                rw [List.map_map]
                rfl
              rw [heq]
              apply sumPowLt
              · unfold qBase
                omega
              · have := successors_length_le cfg it.ns it.q (serverLookup cfg it.ns it.q)
                  it.depth (serverLookup_records_le cfg it.ns it.q)
                simpa using this
              · intro x hx
                rcases List.mem_map.mp hx with ⟨t, ht, rfl⟩
                rw [successors_depth cfg it.ns it.q _ it.depth t ht]
                unfold MAX_RESOLUTION_DEPTH at hdep
                omega
            rw [queueMeasure_cons] at hm
            omega

theorem addEdge_nodes_depth (g : IGGraph) (fk tk : NodeKey) (t : String)
    (h : ∀ p ∈ g.nodes, p.2.depth ≤ MAX_RESOLUTION_DEPTH) :
    ∀ p ∈ (addEdge g fk tk t).nodes, p.2.depth ≤ MAX_RESOLUTION_DEPTH := by
  intro p hp
  unfold addEdge at hp
  simp only [List.mem_map] at hp
  rcases hp with ⟨p', hp', hpe⟩
  have := h p' hp'
  by_cases hk : p'.1 = fk
  · rw [if_pos hk] at hpe
    rw [← hpe]
    exact this
  · rw [if_neg hk] at hpe
    rw [← hpe]
    exact this

theorem addNode_nodes_depth (g : IGGraph) (ns : Dom) (q : Query) (a : DNSAnswer) (d : Nat)
    (hg : ∀ p ∈ g.nodes, p.2.depth ≤ MAX_RESOLUTION_DEPTH) (hd : d ≤ MAX_RESOLUTION_DEPTH) :
    ∀ p ∈ (addNode g ns q a d).nodes, p.2.depth ≤ MAX_RESOLUTION_DEPTH := by
  intro p hp
  unfold addNode at hp
  split at hp
  · exact hg p hp
  · simp only [List.mem_append, List.mem_singleton] at hp
    rcases hp with hp | hp
    · exact hg p hp
    · rw [hp]
      exact hd

theorem resolveLoop_nodes_depth (cfg : Config) :
    ∀ (fuel : Nat) (queue : List QItem) (g : IGGraph) (visited : List (Dom × Query × Nat)),
      (∀ it ∈ queue, it.depth ≤ MAX_RESOLUTION_DEPTH) →
      (∀ p ∈ g.nodes, p.2.depth ≤ MAX_RESOLUTION_DEPTH) →
      ∀ g', resolveLoop cfg fuel queue g visited = some g' →
      ∀ p ∈ g'.nodes, p.2.depth ≤ MAX_RESOLUTION_DEPTH := by
  intro fuel
  induction fuel with
  | zero =>
    intro queue g visited hq hg g' h
    rcases queue with _ | ⟨it, rest⟩
    · simp only [resolveLoop, Option.some.injEq] at h
      exact h ▸ hg
    · simp [resolveLoop] at h
  | succ n ih =>
    intro queue g visited hq hg g' h
    rcases queue with _ | ⟨it, rest⟩
    · simp only [resolveLoop, Option.some.injEq] at h
      exact h ▸ hg
    · have hrest : ∀ t ∈ rest, t.depth ≤ MAX_RESOLUTION_DEPTH :=
        fun t ht => hq t (List.mem_cons_of_mem _ ht)
      have hit : it.depth ≤ MAX_RESOLUTION_DEPTH := hq it (List.mem_cons_self _ _)
      simp only [resolveLoop] at h
      split at h
      · exact ih rest g visited hrest hg g' h
      · split at h
        · -- depth at the bound: ServFail node, possible Timeout edge
          refine ih rest _ _ hrest ?_ g' h
          rcases it.fromK with _ | fk
          · exact addNode_nodes_depth g it.ns it.q _ it.depth hg hit
          · exact addEdge_nodes_depth _ _ _ _
              (addNode_nodes_depth g it.ns it.q _ it.depth hg hit)
        · refine ih _ _ _ ?_ ?_ g' h
          · intro t ht
            rcases List.mem_append.mp ht with ht | ht
            · exact hrest t ht
            · rw [successors_depth cfg it.ns it.q _ it.depth t ht]
              next hdep =>
                unfold MAX_RESOLUTION_DEPTH at * 
                omega
          · rcases it.fromK with _ | fk
            · exact addNode_nodes_depth g it.ns it.q _ it.depth hg hit
            · exact addEdge_nodes_depth _ _ _ _
                (addNode_nodes_depth g it.ns it.q _ it.depth hg hit)

/-- C1 (amended): interpretation-graph construction by Resolver.resolve
always terminates (some fuel drains the worklist for every configuration and
query, since every enqueued successor is one deeper than its parent and
states at the fuel bound get no successors), and every node of a produced IG
is created at depth at most MAX_RESOLUTION_DEPTH (15).  The produced IG may
however contain cycles, so it is not true that every path reaches a terminal
node or a DepthExceeded tag. -/
theorem resolve_always_terminates :
    (∀ (cfg : Config) (q : Query), ∃ fuel, (resolve cfg q fuel).isSome) ∧
    (∀ (cfg : Config) (q : Query) (fuel : Nat) (g : IGGraph), resolve cfg q fuel = some g →
      ∀ p ∈ g.nodes, p.2.depth ≤ MAX_RESOLUTION_DEPTH) := by
  constructor
  · intro cfg q
    refine ⟨queueMeasure cfg (cfg.top_name_servers.map (fun ns => ⟨none, ns, q, 0⟩)) + 1, ?_⟩
    unfold resolve
    apply resolveLoop_completes
    · intro t ht
      rcases List.mem_map.mp ht with ⟨ns, _, rfl⟩
      simp [MAX_RESOLUTION_DEPTH]
    · omega
  · intro cfg q fuel g h
    unfold resolve at h
    refine resolveLoop_nodes_depth cfg fuel _ _ _ ?_ (by simp) g h
    intro t ht
    rcases List.mem_map.mp ht with ⟨ns, _, rfl⟩
    simp [MAX_RESOLUTION_DEPTH]

end Baseline

namespace Baseline

/-- The nameserver used by the concrete baseline scenarios. -/
def nsLoop : Dom := ["example", "ns1"]

/-- A zone in which a.example. is a CNAME to itself. -/
def zoneSelfCname : Zone :=
  { domain := ["example"]
    records :=
      [ ⟨["example"], "SOA", .name ["example", "ns1"]⟩
      , ⟨["example", "a"], "CNAME", .name ["example", "a"]⟩ ] }

/-- The configuration hosting the self-rewriting zone on a single root. -/
def cfgSelfCname : Config := mkConfig [nsLoop] [(nsLoop, [zoneSelfCname])]

/-- The query that rewrites to itself. -/
def querySelfCname : Query := ⟨["example", "a"], "A"⟩

/-- The interpretation graph produced for the self-rewriting query. -/
def igSelfCname : IGGraph :=
  (resolve cfgSelfCname querySelfCname 20).getD ⟨querySelfCname, [], [], []⟩

/-- An infinite path of an interpretation graph: an infinite walk along edges
starting at an entry point. -/
def hasInfinitePath (g : IGGraph) : Prop :=
  ∃ f : Nat → NodeKey, f 0 ∈ g.entry_points ∧
    ∀ i, ∃ e ∈ g.edges, e.src = f i ∧ e.tgt = f (i + 1)

/-- C1 counterexample: for the configuration whose zone rewrites a.example.
to itself, construction terminates but the produced IG contains an edge from
its entry node to itself: it has an infinite path, no node carries the
depth-cutoff tag (ServFail, the DepthExceeded of the specification), and no
node is a sink, so not every root-to-sink path reaches a terminal node or a
DepthExceeded tag within the fuel bound. -/
theorem resolve_cyclic_ig_counterexample :
    (resolve cfgSelfCname querySelfCname 20).isSome = true ∧
    hasInfinitePath igSelfCname ∧
    igSelfCname.nodes.all (fun p => p.2.answer.tag != "ServFail") = true ∧
    igSelfCname.nodes.all (fun p => p.2.is_sink == false) = true := by
  refine ⟨by decide, ?_, by decide, by decide⟩
  refine ⟨fun _ => ⟨nsLoop, querySelfCname⟩, by decide, ?_⟩
  intro i
  exact ⟨⟨⟨nsLoop, querySelfCname⟩, ⟨nsLoop, querySelfCname⟩, "Referral"⟩, by decide, rfl, rfl⟩

theorem addNode_edges (g : IGGraph) (ns : Dom) (q : Query) (a : DNSAnswer) (d : Nat) :
    (addNode g ns q a d).edges = g.edges := by
  unfold addNode
  split <;> rfl

theorem addEdge_edges (g : IGGraph) (fk tk : NodeKey) (t : String) :
    (addEdge g fk tk t).edges = g.edges ++ [⟨fk, tk, t⟩] := rfl

theorem resolveLoop_edge_tags (cfg : Config) :
    ∀ (fuel : Nat) (queue : List QItem) (g : IGGraph) (visited : List (Dom × Query × Nat)),
      (∀ e ∈ g.edges, e.etype = "Referral" ∨ e.etype = "Timeout") →
      ∀ g', resolveLoop cfg fuel queue g visited = some g' →
      ∀ e ∈ g'.edges, e.etype = "Referral" ∨ e.etype = "Timeout" := by
  intro fuel
  induction fuel with
  | zero =>
    intro queue g visited hg g' h
    rcases queue with _ | ⟨it, rest⟩
    · simp only [resolveLoop, Option.some.injEq] at h
      exact h ▸ hg
    · simp [resolveLoop] at h
  | succ n ih =>
    intro queue g visited hg g' h
    rcases queue with _ | ⟨it, rest⟩
    · simp only [resolveLoop, Option.some.injEq] at h
      exact h ▸ hg
    · simp only [resolveLoop] at h
      split at h
      · exact ih rest g visited hg g' h
      · split at h
        · refine ih rest _ _ ?_ g' h
          rcases it.fromK with _ | fk
          · rw [addNode_edges]
            exact hg
          · intro e he
            rw [addEdge_edges, addNode_edges] at he
            rcases List.mem_append.mp he with he | he
            · exact hg e he
            · simp only [List.mem_singleton] at he
              exact Or.inr (by rw [he])
        · refine ih _ _ _ ?_ g' h
          rcases it.fromK with _ | fk
          · rw [addNode_edges]
            exact hg
          · intro e he
            rw [addEdge_edges, addNode_edges] at he
            rcases List.mem_append.mp he with he | he
            · exact hg e he
            · simp only [List.mem_singleton] at he
              exact Or.inl (by rw [he])

/-- C3 (amended): when an AnsQ (rewrite) outcome is processed, the successor
states are (root, new_query) for every root server, except that a server
authoritative for a suffix of the rewritten query re-resolves it itself as
the single successor (current_server, new_query); however every edge of a
produced interpretation graph is tagged "Referral" (or "Timeout" at the
depth cutoff) - the rewrite edges carry no rewrite tag. -/
theorem rewrite_successors_and_edge_tags :
    (∀ (cfg : Config) (ns : Dom) (q : Query) (a : DNSAnswer) (d : Nat) (rq : Query),
      a.tag = "AnsQ" → a.rewritten = some rq →
      successors cfg ns q a d =
        (if isLocalRewrite cfg ns rq then [⟨some ⟨ns, q⟩, ns, rq, d + 1⟩]
         else cfg.top_name_servers.map (fun t => (⟨some ⟨ns, q⟩, t, rq, d + 1⟩ : QItem)))) ∧
    (∀ (cfg : Config) (q : Query) (fuel : Nat) (g : IGGraph), resolve cfg q fuel = some g →
      ∀ e ∈ g.edges, e.etype = "Referral" ∨ e.etype = "Timeout") := by
  constructor
  · intro cfg ns q a d rq ht hr
    unfold successors
    rw [ht, hr]
    simp
  · intro cfg q fuel g h
    unfold resolve at h
    exact resolveLoop_edge_tags cfg fuel _ _ _ (by simp) g h

/-- A zone in which a.example. is a CNAME to b.example., which holds an A
record, so the rewrite is local to the server. -/
def zoneLocalRewrite : Zone :=
  { domain := ["example"]
    records :=
      [ ⟨["example"], "SOA", .name ["example", "ns1"]⟩
      , ⟨["example", "a"], "CNAME", .name ["example", "b"]⟩
      , ⟨["example", "b"], "A", .raw "1.2.3.4"⟩ ] }

/-- The configuration hosting the local-rewrite zone on a single root. -/
def cfgLocalRewrite : Config := mkConfig [nsLoop] [(nsLoop, [zoneLocalRewrite])]

/-- The rewritten-from query of the local-rewrite scenario. -/
def queryLocalA : Query := ⟨["example", "a"], "A"⟩

/-- The rewritten-to query of the local-rewrite scenario. -/
def queryLocalB : Query := ⟨["example", "b"], "A"⟩

/-- The interpretation graph of the local-rewrite scenario. -/
def igLocalRewrite : IGGraph :=
  (resolve cfgLocalRewrite queryLocalA 20).getD ⟨queryLocalA, [], [], []⟩

/-- C3 witness: the amended theorem applied to the local-rewrite scenario;
the single successor stays on the current server, and every edge of the
produced graph is tagged Referral or Timeout. -/
theorem rewrite_successors_and_edge_tags_witness :
    (serverLookup cfgLocalRewrite nsLoop queryLocalA).tag = "AnsQ" ∧
    (serverLookup cfgLocalRewrite nsLoop queryLocalA).rewritten = some queryLocalB ∧
    isLocalRewrite cfgLocalRewrite nsLoop queryLocalB = true ∧
    successors cfgLocalRewrite nsLoop queryLocalA
        (serverLookup cfgLocalRewrite nsLoop queryLocalA) 0 =
      [⟨some ⟨nsLoop, queryLocalA⟩, nsLoop, queryLocalB, 1⟩] ∧
    (∀ e ∈ igLocalRewrite.edges, e.etype = "Referral" ∨ e.etype = "Timeout") := by
  refine ⟨by decide, by decide, by decide, ?_, ?_⟩
  · have h := rewrite_successors_and_edge_tags.1 cfgLocalRewrite nsLoop queryLocalA
      (serverLookup cfgLocalRewrite nsLoop queryLocalA) 0 queryLocalB (by decide) (by decide)
    rw [h, if_pos (by decide)]
  · intro e he
    have hsome : (resolve cfgLocalRewrite queryLocalA 20).isSome = true := by decide
    rcases Option.isSome_iff_exists.mp hsome with ⟨g, hg⟩
    have hgi : igLocalRewrite = g := by
      unfold igLocalRewrite
      rw [hg]
      rfl
    exact rewrite_successors_and_edge_tags.2 cfgLocalRewrite queryLocalA 20 g hg e
      (hgi ▸ he)

/-- C3 counterexample: the node of the local-rewrite scenario carries an AnsQ
(rewrite) answer and its outgoing edge goes to the single local successor,
yet that edge is tagged "Referral": every edge of the graph is tagged
"Referral", so no rewrite edge is tagged as a rewrite. -/
theorem rewrite_edge_tag_counterexample :
    (resolve cfgLocalRewrite queryLocalA 20).isSome = true ∧
    ((alGet igLocalRewrite.nodes ⟨nsLoop, queryLocalA⟩).map (fun n => n.answer.tag)) =
      some "AnsQ" ∧
    (⟨⟨nsLoop, queryLocalA⟩, ⟨nsLoop, queryLocalB⟩, "Referral"⟩ : IGEdge) ∈
      igLocalRewrite.edges ∧
    igLocalRewrite.edges.all (fun e => e.etype == "Referral") = true := by
  decide

end Baseline

namespace GrootV1

theorem fazStep_skip (query : String) (zm : ZoneMap) (acc : Option (Zone × Nat))
    (zn : String) (h : zoneNameMatches zn query = false) :
    fazStep query zm acc zn = acc := by
  unfold fazStep
  rw [if_neg]
  simp [h]

theorem faz_fold_id (query : String) (zm : ZoneMap) :
    ∀ (l : List String), (∀ zn ∈ l, zoneNameMatches zn query = false) →
      ∀ (acc : Option (Zone × Nat)), l.foldl (fazStep query zm) acc = acc := by
  intro l
  induction l with
  | nil => intro _ acc; rfl
  | cons a t ihl =>
    intro hl acc
    simp only [List.foldl_cons]
    rw [fazStep_skip query zm acc a (hl a (List.mem_cons_self a t))]
    exact ihl (fun zn hz => hl zn (List.mem_cons_of_mem a hz)) acc

theorem outcomeForType_otype (rm : List (String × List (String × List RR))) (ce qn : String)
    (rrset : List (String × List RR)) (isDeleg hasDname : Bool) (t : String) :
    (outcomeForType rm ce qn rrset isDeleg hasDname t).1.otype ∈
      (["REF", "ANSQ", "ANS", "NX"] : List String) := by
  unfold outcomeForType
  repeat' split
  all_goals simp

theorem insertOutcome_fst_prop (Q : OutcomeKey → Prop)
    (acc : List (OutcomeKey × (List String × List RR))) (k : OutcomeKey) (t : String)
    (used : List RR) (hacc : ∀ p ∈ acc, Q p.1) (hk : Q k) :
    ∀ p ∈ insertOutcome acc k t used, Q p.1 := by
  induction acc with
  | nil =>
    intro p hp
    simp only [insertOutcome, List.mem_singleton] at hp
    rw [hp]
    exact hk
  | cons a rest ih =>
    obtain ⟨k1, ts1, rs1⟩ := a
    intro p hp
    simp only [insertOutcome] at hp
    split at hp
    · rcases List.mem_cons.mp hp with h | h
      · rw [h]
        exact hacc (k1, ts1, rs1) (List.mem_cons_self _ _)
      · exact hacc _ (List.mem_cons_of_mem _ h)
    · rcases List.mem_cons.mp hp with h | h
      · rw [h]
        exact hacc (k1, ts1, rs1) (List.mem_cons_self _ _)
      · exact ih (fun q hq => hacc q (List.mem_cons_of_mem _ hq)) p h

theorem foldOutcome_fst_prop (Q : OutcomeKey → Prop) (F : String → OutcomeKey × List RR)
    (hF : ∀ t, Q (F t).1) :
    ∀ (ts : List String) (acc : List (OutcomeKey × (List String × List RR))),
      (∀ p ∈ acc, Q p.1) →
      ∀ p ∈ ts.foldl (fun acc t => insertOutcome acc (F t).1 t (F t).2) acc, Q p.1 := by
  intro ts
  induction ts with
  | nil => intro acc hacc; exact hacc
  | cons t ts ih =>
    intro acc hacc
    simp only [List.foldl_cons]
    exact ih _ (insertOutcome_fst_prop Q acc (F t).1 t (F t).2 hacc (hF t))

theorem ssl_answer_type_mem (zone : Zone) (query : String) (types : List String) :
    ∀ o ∈ symbolic_server_lookup zone query types,
      o.answer.type ∈ (["REF", "ANSQ", "ANS", "NX"] : List String) := by
  intro o ho
  simp only [symbolic_server_lookup] at ho
  rcases List.mem_map.mp ho with ⟨g, hg, rfl⟩
  exact foldOutcome_fst_prop
    (fun k => k.otype ∈ (["REF", "ANSQ", "ANS", "NX"] : List String)) _
    (fun t => outcomeForType_otype _ _ _ _ _ _ t) types [] (by simp) g hg

theorem mem_foldl_listInsert (l : List OutcomeGroup) :
    ∀ (init : List String) (x : String),
      x ∈ l.foldl (fun acc o => listInsert acc o.answer.type) init →
      x ∈ init ∨ ∃ o ∈ l, o.answer.type = x := by
  induction l with
  | nil => intro init x h; exact Or.inl h
  | cons o l ih =>
    intro init x h
    simp only [List.foldl_cons] at h
    rcases ih _ x h with h | h
    · rcases (mem_listInsert_iff init o.answer.type x).mp h with h | h
      · exact Or.inl h
      · exact Or.inr ⟨o, List.mem_cons_self _ _, h.symm⟩
    · rcases h with ⟨o1, ho1, he⟩
      exact Or.inr ⟨o1, List.mem_cons_of_mem _ ho1, he⟩

theorem refused_not_allTags (zone : Zone) (q : String) (ts : List String) :
    "REFUSED" ∉ (symbolic_server_lookup zone q ts).foldl
      (fun acc o => listInsert acc o.answer.type) ([] : List String) := by
  intro h
  rcases mem_foldl_listInsert _ [] "REFUSED" h with h | ⟨o, ho, he⟩
  · simp at h
  · have hmem := ssl_answer_type_mem zone q ts o ho
    rw [he] at hmem
    simp at hmem

theorem mem_igPushes (q : String) (nid : Nat) (cfg : DNSConfig) :
    ∀ (outcomes : List OutcomeGroup) (init : List WItem),
      (∀ w ∈ init, w.parent = some nid) →
      ∀ w ∈ outcomes.foldl (fun acc o =>
          if o.answer.type = "REF" then
            acc ++ (o.answer.target_servers.getD []).map (fun ns =>
              (⟨ns, q, o.types, some nid, some "referral"⟩ : WItem))
          else if o.answer.type = "ANSQ" then
            acc ++ cfg.Theta.map (fun root =>
              (⟨root, o.answer.new_query.getD "", o.types, some nid, some "rewrite"⟩ : WItem))
          else acc) init,
        w.parent = some nid := by
  intro outcomes
  induction outcomes with
  | nil => intro init hinit w hw; exact hinit w hw
  | cons o os ih =>
    intro init hinit w hw
    simp only [List.foldl_cons] at hw
    refine ih _ ?_ w hw
    intro w2 hw2
    by_cases h1 : o.answer.type = "REF"
    · rw [if_pos h1] at hw2
      rcases List.mem_append.mp hw2 with h | h
      · exact hinit w2 h
      · rcases List.mem_map.mp h with ⟨ns, _, rfl⟩
        rfl
    · rw [if_neg h1] at hw2
      by_cases h2 : o.answer.type = "ANSQ"
      · rw [if_pos h2] at hw2
        rcases List.mem_append.mp hw2 with h | h
        · exact hinit w2 h
        · rcases List.mem_map.mp h with ⟨r, _, rfl⟩
          rfl
      · rw [if_neg h2] at hw2
        exact hinit w2 hw2

end GrootV1

namespace GrootV1

theorem igLoop_refused_inv (cfg : DNSConfig) (zm : ZoneMap) :
    ∀ (fuel : Nat) (queue : List WItem) (st : IGState),
      (∀ n ∈ st.nodes, n.1 < st.counter) →
      (∀ n ∈ st.nodes,
        ("REFUSED" ∈ n.2.tags ↔
          find_authoritative_zone n.2.nameserver n.2.current_query cfg zm = none) ∧
        ("REFUSED" ∈ n.2.tags → n.2.tags = ["REFUSED"])) →
      (∀ e ∈ st.edges, e.source_id < st.counter ∧
        ∀ n ∈ st.nodes, n.1 = e.source_id → "REFUSED" ∉ n.2.tags) →
      (∀ it ∈ queue, ∀ pid, it.parent = some pid → pid < st.counter ∧
        ∀ n ∈ st.nodes, n.1 = pid → "REFUSED" ∉ n.2.tags) →
      ∀ st', igLoop cfg zm fuel queue st = some st' →
      (∀ n ∈ st'.nodes,
        ("REFUSED" ∈ n.2.tags ↔
          find_authoritative_zone n.2.nameserver n.2.current_query cfg zm = none) ∧
        ("REFUSED" ∈ n.2.tags → n.2.tags = ["REFUSED"])) ∧
      (∀ e ∈ st'.edges, ∀ n ∈ st'.nodes, n.1 = e.source_id → "REFUSED" ∉ n.2.tags) := by
  intro fuel
  induction fuel with
  | zero =>
    intro queue st hA hT hE hQ st' h
    rcases queue with _ | ⟨it, rest⟩
    · simp only [igLoop, Option.some.injEq] at h
      subst h
      exact ⟨hT, fun e he n hn => (hE e he).2 n hn⟩
    · simp [igLoop] at h
  | succ f ih =>
    intro queue st hA hT hE hQ st' h
    rcases queue with _ | ⟨it, rest⟩
    · simp only [igLoop, Option.some.injEq] at h
      subst h
      exact ⟨hT, fun e he n hn => (hE e he).2 n hn⟩
    · simp only [igLoop] at h
      rcases hvis : visGet st.visited it.server it.query it.types with _ | nid
      · -- new state
        simp only [hvis] at h
        rcases hpar : it.parent with _ | pid
        · simp only [hpar] at h
          rcases hfz : find_authoritative_zone it.server it.query cfg zm with _ | zone
          · simp only [hfz] at h
            refine ih rest _ ?_ ?_ ?_ ?_ st' h
            · intro n hn
              show n.1 < st.counter + 1
              rcases List.mem_append.mp hn with hn | hn
              · have := hA n hn
                omega
              · simp only [List.mem_singleton] at hn
                rw [hn]
                show st.counter < st.counter + 1
                omega
            · intro n hn
              rcases List.mem_append.mp hn with hn | hn
              · exact hT n hn
              · simp only [List.mem_singleton] at hn
                rw [hn]
                simp [hfz]
            · intro e he
              have he2 := hE e he
              refine ⟨show e.source_id < st.counter + 1 by omega, ?_⟩
              intro n hn heq
              rcases List.mem_append.mp hn with hn | hn
              · exact he2.2 n hn heq
              · simp only [List.mem_singleton] at hn
                rw [hn] at heq
                simp at heq
                omega
            · intro it2 h2 pid2 hp2
              have hq2 := hQ it2 (List.mem_cons_of_mem _ h2) pid2 hp2
              refine ⟨show pid2 < st.counter + 1 by omega, ?_⟩
              intro n hn heq
              rcases List.mem_append.mp hn with hn | hn
              · exact hq2.2 n hn heq
              · simp only [List.mem_singleton] at hn
                rw [hn] at heq
                simp at heq
                omega
          · simp only [hfz] at h
            refine ih _ _ ?_ ?_ ?_ ?_ st' h
            · intro n hn
              show n.1 < st.counter + 1
              rcases List.mem_append.mp hn with hn | hn
              · have := hA n hn
                omega
              · simp only [List.mem_singleton] at hn
                rw [hn]
                show st.counter < st.counter + 1
                omega
            · intro n hn
              rcases List.mem_append.mp hn with hn | hn
              · exact hT n hn
              · simp only [List.mem_singleton] at hn
                rw [hn]
                constructor
                · constructor
                  · intro hr
                    exact absurd hr (refused_not_allTags zone it.query it.types)
                  · intro hr
                    rw [hfz] at hr
                    simp at hr
                · intro hr
                  exact absurd hr (refused_not_allTags zone it.query it.types)
            · intro e he
              have he2 := hE e he
              refine ⟨show e.source_id < st.counter + 1 by omega, ?_⟩
              intro n hn heq
              rcases List.mem_append.mp hn with hn | hn
              · exact he2.2 n hn heq
              · simp only [List.mem_singleton] at hn
                rw [hn]
                exact refused_not_allTags zone it.query it.types
            · intro it2 h2 pid2 hp2
              rcases List.mem_append.mp h2 with h2 | h2
              · have hq2 := hQ it2 (List.mem_cons_of_mem _ h2) pid2 hp2
                refine ⟨show pid2 < st.counter + 1 by omega, ?_⟩
                intro n hn heq
                rcases List.mem_append.mp hn with hn | hn
                · exact hq2.2 n hn heq
                · simp only [List.mem_singleton] at hn
                  rw [hn] at heq
                  simp at heq
                  omega
              · have hpar2 := mem_igPushes it.query st.counter cfg
                  (symbolic_server_lookup zone it.query it.types) [] (by simp) it2 h2
                rw [hpar2] at hp2
                injection hp2 with hp2
                subst hp2
                refine ⟨show st.counter < st.counter + 1 by omega, ?_⟩
                intro n hn heq
                rcases List.mem_append.mp hn with hn | hn
                · have := hA n hn
                  omega
                · simp only [List.mem_singleton] at hn
                  rw [hn]
                  exact refused_not_allTags zone it.query it.types
        · simp only [hpar] at h
          rcases hfz : find_authoritative_zone it.server it.query cfg zm with _ | zone
          · simp only [hfz] at h
            have hpq := hQ it (List.mem_cons_self _ _) pid hpar
            refine ih rest _ ?_ ?_ ?_ ?_ st' h
            · intro n hn
              show n.1 < st.counter + 1
              rcases List.mem_append.mp hn with hn | hn
              · have := hA n hn
                omega
              · simp only [List.mem_singleton] at hn
                rw [hn]
                show st.counter < st.counter + 1
                omega
            · intro n hn
              rcases List.mem_append.mp hn with hn | hn
              · exact hT n hn
              · simp only [List.mem_singleton] at hn
                rw [hn]
                simp [hfz]
            · intro e he
              rcases List.mem_append.mp he with he | he
              · have he2 := hE e he
                refine ⟨show e.source_id < st.counter + 1 by omega, ?_⟩
                intro n hn heq
                rcases List.mem_append.mp hn with hn | hn
                · exact he2.2 n hn heq
                · simp only [List.mem_singleton] at hn
                  rw [hn] at heq
                  simp at heq
                  omega
              · simp only [List.mem_singleton] at he
                rw [he]
                refine ⟨show pid < st.counter + 1 by omega, ?_⟩
                intro n hn heq
                rcases List.mem_append.mp hn with hn | hn
                · exact hpq.2 n hn heq
                · simp only [List.mem_singleton] at hn
                  rw [hn] at heq
                  simp at heq
                  omega
            · intro it2 h2 pid2 hp2
              have hq2 := hQ it2 (List.mem_cons_of_mem _ h2) pid2 hp2
              refine ⟨show pid2 < st.counter + 1 by omega, ?_⟩
              intro n hn heq
              rcases List.mem_append.mp hn with hn | hn
              · exact hq2.2 n hn heq
              · simp only [List.mem_singleton] at hn
                rw [hn] at heq
                simp at heq
                omega
          · simp only [hfz] at h
            have hpq := hQ it (List.mem_cons_self _ _) pid hpar
            refine ih _ _ ?_ ?_ ?_ ?_ st' h
            · intro n hn
              show n.1 < st.counter + 1
              rcases List.mem_append.mp hn with hn | hn
              · have := hA n hn
                omega
              · simp only [List.mem_singleton] at hn
                rw [hn]
                show st.counter < st.counter + 1
                omega
            · intro n hn
              rcases List.mem_append.mp hn with hn | hn
              · exact hT n hn
              · simp only [List.mem_singleton] at hn
                rw [hn]
                constructor
                · constructor
                  · intro hr
                    exact absurd hr (refused_not_allTags zone it.query it.types)
                  · intro hr
                    rw [hfz] at hr
                    simp at hr
                · intro hr
                  exact absurd hr (refused_not_allTags zone it.query it.types)
            · intro e he
              rcases List.mem_append.mp he with he | he
              · have he2 := hE e he
                refine ⟨show e.source_id < st.counter + 1 by omega, ?_⟩
                intro n hn heq
                rcases List.mem_append.mp hn with hn | hn
                · exact he2.2 n hn heq
                · simp only [List.mem_singleton] at hn
                  rw [hn]
                  exact refused_not_allTags zone it.query it.types
              · simp only [List.mem_singleton] at he
                rw [he]
                refine ⟨show pid < st.counter + 1 by omega, ?_⟩
                intro n hn heq
                rcases List.mem_append.mp hn with hn | hn
                · exact hpq.2 n hn heq
                · simp only [List.mem_singleton] at hn
                  rw [hn]
                  exact refused_not_allTags zone it.query it.types
            · intro it2 h2 pid2 hp2
              rcases List.mem_append.mp h2 with h2 | h2
              · have hq2 := hQ it2 (List.mem_cons_of_mem _ h2) pid2 hp2
                refine ⟨show pid2 < st.counter + 1 by omega, ?_⟩
                intro n hn heq
                rcases List.mem_append.mp hn with hn | hn
                · exact hq2.2 n hn heq
                · simp only [List.mem_singleton] at hn
                  rw [hn] at heq
                  simp at heq
                  omega
              · have hpar2 := mem_igPushes it.query st.counter cfg
                  (symbolic_server_lookup zone it.query it.types) [] (by simp) it2 h2
                rw [hpar2] at hp2
                injection hp2 with hp2
                subst hp2
                refine ⟨show st.counter < st.counter + 1 by omega, ?_⟩
                intro n hn heq
                rcases List.mem_append.mp hn with hn | hn
                · have := hA n hn
                  omega
                · simp only [List.mem_singleton] at hn
                  rw [hn]
                  exact refused_not_allTags zone it.query it.types
      · -- revisited state
        simp only [hvis] at h
        rcases hpar : it.parent with _ | pid
        · simp only [hpar] at h
          exact ih rest st hA hT hE
            (fun it2 h2 => hQ it2 (List.mem_cons_of_mem _ h2)) st' h
        · simp only [hpar] at h
          by_cases hmem :
              (⟨pid, nid, it.action.getD "unknown"⟩ : IGEdge) ∈ st.edges
          · rw [if_pos hmem] at h
            exact ih rest st hA hT hE
              (fun it2 h2 => hQ it2 (List.mem_cons_of_mem _ h2)) st' h
          · rw [if_neg hmem] at h
            have hpq := hQ it (List.mem_cons_self _ _) pid hpar
            refine ih rest
              { st with edges := st.edges ++ [⟨pid, nid, it.action.getD "unknown"⟩] }
              hA hT ?_
              (fun it2 h2 => hQ it2 (List.mem_cons_of_mem _ h2)) st' h
            intro e he
            rcases List.mem_append.mp he with he | he
            · exact hE e he
            · simp only [List.mem_singleton] at he
              rw [he]
              exact ⟨hpq.1, hpq.2⟩

end GrootV1

namespace GrootV1

/-- C5: a server hosting no zone whose (normalized) origin matches the query
yields no authoritative zone; in any completed interpretation graph a node
carries the REFUSED tag exactly when its server has no authoritative zone for
its query, a REFUSED node has exactly the tag list ["REFUSED"] and no
outgoing edges (it is terminal), and the lame-delegation check reports a
violation if and only if some node carries the REFUSED tag. -/
theorem refused_nodes_and_lame_delegation :
    (∀ (server query : String) (cfg : DNSConfig) (zm : ZoneMap) (served : List String),
      alGet cfg.Gamma server = some served →
      (∀ zn ∈ served, zoneNameMatches zn query = false) →
      find_authoritative_zone server query cfg zm = none) ∧
    (∀ (cfg : DNSConfig) (zm : ZoneMap) (fuel : Nat) (ec : EquivalenceClass) (g : IG),
      buildIG cfg zm fuel ec = some g →
      (∀ n ∈ g.nodes,
        ("REFUSED" ∈ n.2.tags ↔
          find_authoritative_zone n.2.nameserver n.2.current_query cfg zm = none) ∧
        ("REFUSED" ∈ n.2.tags →
          n.2.tags = ["REFUSED"] ∧ ∀ e ∈ g.edges, e.source_id ≠ n.1)) ∧
      (check_lame_delegation g = true ↔ ∃ n ∈ g.nodes, "REFUSED" ∈ n.2.tags)) := by
  constructor
  · intro server query cfg zm served hs hm
    simp only [find_authoritative_zone, hs]
    rw [faz_fold_id query zm served hm none]
    rfl
  · intro cfg zm fuel ec g hg
    simp only [buildIG] at hg
    rcases Option.map_eq_some'.mp hg with ⟨st, hst, hgst⟩
    subst hgst
    have key :
        (∀ n ∈ st.nodes,
          ("REFUSED" ∈ n.2.tags ↔
            find_authoritative_zone n.2.nameserver n.2.current_query cfg zm = none) ∧
          ("REFUSED" ∈ n.2.tags → n.2.tags = ["REFUSED"])) ∧
        (∀ e ∈ st.edges, ∀ n ∈ st.nodes, n.1 = e.source_id → "REFUSED" ∉ n.2.tags) := by
      refine igLoop_refused_inv cfg zm fuel _ ⟨[], [], [], 0⟩ ?_ ?_ ?_ ?_ st hst
      · intro n hn
        simp at hn
      · intro n hn
        simp at hn
      · intro e he
        simp at he
      · intro it hit pid hp
        rcases List.mem_map.mp hit with ⟨r, _, rfl⟩
        simp at hp
    constructor
    · intro n hn
      have h1 := key.1 n hn
      refine ⟨h1.1, fun hr => ⟨h1.2 hr, ?_⟩⟩
      intro e he heq
      exact key.2 e he n hn heq.symm hr
    · simp [check_lame_delegation]

/-- The C5 scenario zone: example. delegates sub.example. to ns2.example. -/
def zone5 : Zone :=
  { origin := "example."
    records :=
      [ ⟨"example.", 3600, "SOA", "ns1.example. hostmaster.example."⟩
      , ⟨"example.", 3600, "NS", "ns1.example."⟩
      , ⟨"sub.example.", 3600, "NS", "ns2.example."⟩ ] }

/-- The C5 scenario configuration: only ns1.example. hosts a zone; the
delegation target ns2.example. hosts none. -/
def cfg5 : DNSConfig :=
  { S := ["ns1.example."]
    Theta := ["ns1.example."]
    Gamma := [("ns1.example.", ["example."])]
    Omega := [] }

/-- The C5 scenario zone map. -/
def zm5 : ZoneMap := ⟨[("example.", zone5)]⟩

/-- The C5 scenario equivalence class: query sub.example. for type A. -/
def ec5 : EquivalenceClass := ⟨0, ["sub", "example"], ["A"]⟩

/-- The interpretation graph of the C5 scenario. -/
def ig5 : IG := (buildIG cfg5 zm5 10 ec5).getD ⟨0, [], []⟩

/-- C5 witness: in the concrete scenario the non-hosting server has no
authoritative zone, the graph contains a REFUSED node, the lame-delegation
check fires, and every REFUSED node is terminal with exactly that tag. -/
theorem refused_nodes_and_lame_delegation_witness :
    find_authoritative_zone "ns1.example." "other.test." cfg5 zm5 = none ∧
    check_lame_delegation ig5 = true ∧
    (∀ n ∈ ig5.nodes, "REFUSED" ∈ n.2.tags →
      find_authoritative_zone n.2.nameserver n.2.current_query cfg5 zm5 = none ∧
      n.2.tags = ["REFUSED"] ∧ ∀ e ∈ ig5.edges, e.source_id ≠ n.1) := by
  have hmain := refused_nodes_and_lame_delegation
  have hg : buildIG cfg5 zm5 10 ec5 = some ig5 := by decide
  refine ⟨?_, by decide, ?_⟩
  · exact hmain.1 "ns1.example." "other.test." cfg5 zm5 ["example."]
      (by decide) (by decide)
  · intro n hn hr
    have h2 := (hmain.2 cfg5 zm5 10 ec5 ig5 hg).1 n hn
    exact ⟨h2.1.mp hr, (h2.2 hr).1, (h2.2 hr).2⟩

end GrootV1

theorem alGet_map_keys {κ β : Type} [DecidableEq κ] (l : List (κ × β)) (G : κ → β → β)
    (k : κ) :
    alGet (l.map (fun p => (p.1, G p.1 p.2))) k = (alGet l k).map (G k) := by
  induction l with
  | nil => rfl
  | cons p rest ih =>
    simp only [List.map_cons, alGet]
    by_cases h : p.1 = k
    · subst h
      simp
    · rw [if_neg h, if_neg h]
      exact ih

theorem filter_not_filter {α : Type} (p : α → Bool) (l : List α) :
    List.filter p (List.filter (fun a => !(p a)) l) = [] := by
  induction l with
  | nil => rfl
  | cons a l ih =>
    by_cases h : p a = true
    · simp [List.filter_cons, h, ih]
    · simp only [List.filter_cons]
      rw [show (!(p a)) = true by simp [h]]
      simp only [if_true]
      simp [List.filter_cons, h, ih]

namespace Repro

theorem fpkStep_map (z : String) (G : (String × String) → Zone → Zone)
    (acc : Option ((String × String) × Zone × Nat)) (p : (String × String) × Zone) :
    fpkStep z (acc.map (fun x => (x.1, G x.1 x.2.1, x.2.2))) (p.1, G p.1 p.2) =
      (fpkStep z acc p).map (fun x => (x.1, G x.1 x.2.1, x.2.2)) := by
  unfold fpkStep
  dsimp only
  by_cases h1 : p.1.2 = z
  · rw [if_pos h1, if_pos h1]
  · rw [if_neg h1, if_neg h1]
    by_cases h2 : PyStr.endsWithPy z p.1.2 = true
    · rw [if_pos h2, if_pos h2]
      rcases acc with _ | b
      · simp
      · by_cases h3 : PyStr.lenPy p.1.2 > b.2.2
        · simp [h3]
        · simp [h3]
    · rw [if_neg h2, if_neg h2]

theorem findParentK_fold_map (z : String) (G : (String × String) → Zone → Zone) :
    ∀ (zm : ZoneMap) (acc : Option ((String × String) × Zone × Nat)),
      (zm.map (fun p => (p.1, G p.1 p.2))).foldl (fpkStep z)
          (acc.map (fun x => (x.1, G x.1 x.2.1, x.2.2))) =
        (zm.foldl (fpkStep z) acc).map (fun x => (x.1, G x.1 x.2.1, x.2.2)) := by
  intro zm
  induction zm with
  | nil => intro acc; rfl
  | cons p rest ih =>
    intro acc
    simp only [List.map_cons, List.foldl_cons]
    rw [fpkStep_map z G acc p]
    exact ih _

theorem findParentK_map_keys (zm : ZoneMap) (G : (String × String) → Zone → Zone)
    (z : String) :
    findParentK (zm.map (fun p => (p.1, G p.1 p.2))) z =
      (findParentK zm z).map (fun x => (x.1, G x.1 x.2.1, x.2.2)) := by
  unfold findParentK
  exact findParentK_fold_map z G zm none

end Repro

namespace Repro

/-- The NS-at-a-name predicate used by the swap construction. -/
def nsAt (zn : String) (r : Record) : Bool := r.name = zn && r.rtype = "NS"

/-- The per-entry zone transformation performed by swapNSAt. -/
def swapG (ck pk : String × String) (zn : String) (cNS pNS : List Record)
    (k : String × String) (z0 : Zone) : Zone :=
  if k = ck then { z0 with records := z0.records.filter (fun r => !(nsAt zn r)) ++ pNS }
  else if k = pk then { z0 with records := z0.records.filter (fun r => !(nsAt zn r)) ++ cNS }
  else z0

theorem filter_swap_append {α : Type} (p : α → Bool) (l add : List α)
    (hadd : ∀ r ∈ add, p r = true) :
    List.filter p (List.filter (fun a => !(p a)) l ++ add) = add := by
  rw [List.filter_append, filter_not_filter, List.nil_append]
  exact List.filter_eq_self.mpr hadd

theorem swapNSAt_as_map (zm : ZoneMap) (ck pk : String × String) (cz pz : Zone)
    (hck : alGet zm ck = some cz) (hpk : alGet zm pk = some pz) :
    swapNSAt zm ck pk ck.2 =
      zm.map (fun p => (p.1,
        swapG ck pk ck.2 (cz.records.filter (nsAt ck.2)) (pz.records.filter (nsAt ck.2))
          p.1 p.2)) := by
  simp only [swapNSAt, hck, hpk]
  rfl

end Repro

/-- C8 (amended): the repro checker's per-zone delegation-consistency test is
symmetric in the two NS sets: exchanging the NS records owned at the child
origin between the chosen parent zone and the child zone does not change
whether the entry is flagged. -/
theorem delegation_consistency_swap (zm : Repro.ZoneMap) (ck pk : String × String)
    (cz pz : Repro.Zone) (L : Nat)
    (hck : alGet zm ck = some cz)
    (hpk : alGet zm pk = some pz)
    (hfp : Repro.findParentK zm ck.2 = some (pk, pz, L))
    (hne : pk ≠ ck) :
    ∃ cz2, alGet (Repro.swapNSAt zm ck pk ck.2) ck = some cz2 ∧
      Repro.delegationIssueEntry (Repro.swapNSAt zm ck pk ck.2) ck.2 cz2 =
        Repro.delegationIssueEntry zm ck.2 cz := by
  rw [Repro.swapNSAt_as_map zm ck pk cz pz hck hpk]
  rw [alGet_map_keys zm
    (Repro.swapG ck pk ck.2 (cz.records.filter (Repro.nsAt ck.2))
      (pz.records.filter (Repro.nsAt ck.2))) ck]
  rw [hck]
  refine ⟨_, rfl, ?_⟩
  unfold Repro.delegationIssueEntry Repro.findParent
  rw [Repro.findParentK_map_keys zm
    (Repro.swapG ck pk ck.2 (cz.records.filter (Repro.nsAt ck.2))
      (pz.records.filter (Repro.nsAt ck.2))) ck.2]
  rw [hfp]
  simp only [Option.map_some']
  have hPar : Repro.get_records
      (Repro.swapG ck pk ck.2 (cz.records.filter (Repro.nsAt ck.2))
        (pz.records.filter (Repro.nsAt ck.2)) pk pz) ck.2 "NS"
      = cz.records.filter (Repro.nsAt ck.2) := by
    unfold Repro.swapG
    rw [if_neg hne, if_pos rfl]
    show List.filter (Repro.nsAt ck.2)
        (pz.records.filter (fun r => !(Repro.nsAt ck.2 r)) ++
          cz.records.filter (Repro.nsAt ck.2))
      = cz.records.filter (Repro.nsAt ck.2)
    exact Repro.filter_swap_append (Repro.nsAt ck.2) pz.records _
      (fun r hr => List.of_mem_filter hr)
  have hChild : Repro.get_records
      (Repro.swapG ck pk ck.2 (cz.records.filter (Repro.nsAt ck.2))
        (pz.records.filter (Repro.nsAt ck.2)) ck cz) ck.2 "NS"
      = pz.records.filter (Repro.nsAt ck.2) := by
    unfold Repro.swapG
    rw [if_pos rfl]
    show List.filter (Repro.nsAt ck.2)
        (cz.records.filter (fun r => !(Repro.nsAt ck.2 r)) ++
          pz.records.filter (Repro.nsAt ck.2))
      = pz.records.filter (Repro.nsAt ck.2)
    exact Repro.filter_swap_append (Repro.nsAt ck.2) cz.records _
      (fun r hr => List.of_mem_filter hr)
  have hP0 : Repro.get_records pz ck.2 "NS" = pz.records.filter (Repro.nsAt ck.2) := rfl
  have hC0 : Repro.get_records cz ck.2 "NS" = cz.records.filter (Repro.nsAt ck.2) := rfl
  rw [hPar, hChild, hP0, hC0, listSetEq_symm]

namespace Repro

/-- The C8 witness child zone. -/
def czR : Zone := ⟨"sub.example.com.", "nsC", [⟨"sub.example.com.", "NS", "b.ns."⟩]⟩

/-- The C8 witness parent zone, delegating sub.example.com. to a.ns. -/
def pzR : Zone := ⟨"example.com.", "nsP", [⟨"sub.example.com.", "NS", "a.ns."⟩]⟩

/-- The C8 witness zone map. -/
def zmR : ZoneMap := [(("nsP", "example.com."), pzR), (("nsC", "sub.example.com."), czR)]

/-- The C8 witness child key. -/
def ckR : String × String := ("nsC", "sub.example.com.")

/-- The C8 witness parent key. -/
def pkR : String × String := ("nsP", "example.com.")

end Repro

/-- C8 witness: in the concrete two-zone map the entry is flagged (a.ns.
versus b.ns.), and exchanging the NS sets between parent and child leaves the
flag unchanged. -/
theorem delegation_consistency_swap_witness :
    alGet Repro.zmR Repro.ckR = some Repro.czR ∧
    Repro.findParentK Repro.zmR Repro.ckR.2 = some (Repro.pkR, Repro.pzR, 12) ∧
    Repro.delegationIssueEntry Repro.zmR Repro.ckR.2 Repro.czR = true ∧
    ∃ cz2, alGet (Repro.swapNSAt Repro.zmR Repro.ckR Repro.pkR Repro.ckR.2) Repro.ckR =
        some cz2 ∧
      Repro.delegationIssueEntry (Repro.swapNSAt Repro.zmR Repro.ckR Repro.pkR Repro.ckR.2)
          Repro.ckR.2 cz2 =
        Repro.delegationIssueEntry Repro.zmR Repro.ckR.2 Repro.czR := by
  refine ⟨by decide, by decide, by decide, ?_⟩
  exact delegation_consistency_swap Repro.zmR Repro.ckR Repro.pkR Repro.czR Repro.pzR 12
    (by decide) (by decide) (by decide) (by decide)

namespace Baseline

/-- The C8 parent domain (labels reversed, as in run_baseline). -/
def pDom8 : Dom := ["com", "example"]

/-- The C8 child domain. -/
def cDom8 : Dom := ["com", "example", "sub"]

/-- The delegation NS record at the child domain. -/
def nsRec8 : RR := ⟨cDom8, "NS", .name ["com", "example", "sub", "ns1"]⟩

/-- C8 scenario A: the NS set at the child origin sits in the parent zone
only; the child apex has no NS records. -/
def zbdSwapA : List (Dom × List Zone) :=
  [ (pDom8, [⟨pDom8, [⟨pDom8, "SOA", .raw "soa"⟩, nsRec8]⟩])
  , (cDom8, [⟨cDom8, [⟨cDom8, "SOA", .raw "soa"⟩]⟩]) ]

/-- C8 scenario B: the same configuration with the two NS sets exchanged -
the NS record now sits at the child apex only. -/
def zbdSwapB : List (Dom × List Zone) :=
  [ (pDom8, [⟨pDom8, [⟨pDom8, "SOA", .raw "soa"⟩]⟩])
  , (cDom8, [⟨cDom8, [⟨cDom8, "SOA", .raw "soa"⟩, nsRec8]⟩]) ]

end Baseline

/-- C8 counterexample: run_baseline's structural delegation-consistency check
is not symmetric in the two NS sets: with the NS set in the parent zone and an
empty set at the child apex it reports a violation, but after exchanging the
two sets it reports none, because the comparison runs only for child domains
that appear among the parent zone's own delegation records. -/
theorem structural_delegation_swap_counterexample :
    (Baseline.checkDelegationStructural Baseline.zbdSwapA).length = 1 ∧
    Baseline.checkDelegationStructural Baseline.zbdSwapB = [] := by
  constructor
  · decide
  · decide

theorem alGet_alSet_isSome {κ β : Type} [DecidableEq κ] (m : List (κ × β)) (k k' : κ) (v : β)
    (h : (alGet m k').isSome = true) : (alGet (alSet m k v) k').isSome = true := by
  by_cases he : k' = k
  · subst he
    rw [alGet_alSet_self]
    rfl
  · rw [alGet_alSet_ne m k k' v he]
    exact h

namespace GrootV1

theorem nsFold_d2z (zoneObj : Zone) :
    ∀ (l : List String) (st : ProcState),
      (l.foldl (fun st ns =>
          { st with
            s_set := listInsert st.s_set ns
            gamma := alModify st.gamma ns
              (fun x => if zoneObj ∈ x then x else x ++ [zoneObj]) [] }) st).domain_to_zone
        = st.domain_to_zone := by
  intro l
  induction l with
  | nil => intro st; rfl
  | cons a l ih =>
    intro st
    simp only [List.foldl_cons]
    rw [ih]

theorem procZone_skip (cr : String → List RR) (fs : FS) (dp : String) (st : ProcState)
    (zi : ZoneInfo) (h : zi.domain_name = "" ∨ zi.file_name = "") :
    procZone cr fs dp st zi = st := by
  unfold procZone
  rcases h with h | h <;> simp [h]

theorem procZone_d2z (cr : String → List RR) (fs : FS) (dp : String) (st : ProcState)
    (zi : ZoneInfo) (hn : zi.domain_name ≠ "") (hf : zi.file_name ≠ "") :
    (procZone cr fs dp st zi).domain_to_zone =
      alSet st.domain_to_zone zi.domain_name
        ⟨zi.domain_name, parse_zone_file cr fs (pathJoin dp zi.file_name)⟩ := by
  simp only [procZone]
  rw [if_neg (by simp [hn, hf])]
  rw [nsFold_d2z]

theorem d2zFold_preserve (cr : String → List RR) (fs : FS) (dp : String) (k : String)
    (v : Zone) :
    ∀ (zs : List ZoneInfo) (st : ProcState),
      alGet st.domain_to_zone k = some v →
      (∀ zj ∈ zs, zj.domain_name = k → zj.domain_name ≠ "" → zj.file_name ≠ "" →
        (⟨k, parse_zone_file cr fs (pathJoin dp zj.file_name)⟩ : Zone) = v) →
      alGet ((zs.foldl (procZone cr fs dp) st)).domain_to_zone k = some v := by
  intro zs
  induction zs with
  | nil => intro st h _; exact h
  | cons zj zs ih =>
    intro st h hcond
    simp only [List.foldl_cons]
    refine ih _ ?_ (fun zk hk => hcond zk (List.mem_cons_of_mem _ hk))
    by_cases h1 : zj.domain_name = "" ∨ zj.file_name = ""
    · rw [procZone_skip cr fs dp st zj h1]
      exact h
    · push_neg at h1
      rw [procZone_d2z cr fs dp st zj h1.1 h1.2]
      by_cases h2 : zj.domain_name = k
      · rw [h2, alGet_alSet_self]
        rw [hcond zj (List.mem_cons_self _ _) h2 h1.1 h1.2]
      · rw [alGet_alSet_ne _ _ _ _ (fun he => h2 he.symm)]
        exact h
  
theorem d2zFold_registers (cr : String → List RR) (fs : FS) (dp : String) :
    ∀ (zs : List ZoneInfo) (st : ProcState) (zi : ZoneInfo),
      zi ∈ zs → zi.domain_name ≠ "" → zi.file_name ≠ "" →
      (∀ zj ∈ zs, zj.domain_name = zi.domain_name → zj = zi) →
      alGet ((zs.foldl (procZone cr fs dp) st)).domain_to_zone zi.domain_name =
        some ⟨zi.domain_name, parse_zone_file cr fs (pathJoin dp zi.file_name)⟩ := by
  intro zs
  induction zs with
  | nil => intro st zi h; simp at h
  | cons zj zs ih =>
    intro st zi hmem hn hf huniq
    simp only [List.foldl_cons]
    rcases List.mem_cons.mp hmem with he | hmem2
    · subst he
      refine d2zFold_preserve cr fs dp zi.domain_name _ zs _ ?_ ?_
      · rw [procZone_d2z cr fs dp st zi hn hf]
        exact alGet_alSet_self _ _ _
      · intro zk hk hkname hkn hkf
        have hzk : zk = zi := huniq zk (List.mem_cons_of_mem _ hk) hkname
        subst hzk
        rw [hkname]
    · exact ih _ zi hmem2 hn hf (fun zk hk => huniq zk (List.mem_cons_of_mem _ hk))

theorem d2zFold_isSome (cr : String → List RR) (fs : FS) (dp : String) (k : String) :
    ∀ (zs : List ZoneInfo) (st : ProcState),
      (alGet st.domain_to_zone k).isSome = true →
      (alGet ((zs.foldl (procZone cr fs dp) st)).domain_to_zone k).isSome = true := by
  intro zs
  induction zs with
  | nil => intro st h; exact h
  | cons zj zs ih =>
    intro st h
    simp only [List.foldl_cons]
    refine ih _ ?_
    by_cases h1 : zj.domain_name = "" ∨ zj.file_name = ""
    · rw [procZone_skip cr fs dp st zj h1]
      exact h
    · push_neg at h1
      rw [procZone_d2z cr fs dp st zj h1.1 h1.2]
      exact alGet_alSet_isSome _ _ _ _ h

theorem d2zFold_mem_isSome (cr : String → List RR) (fs : FS) (dp : String) :
    ∀ (zs : List ZoneInfo) (st : ProcState) (zi : ZoneInfo),
      zi ∈ zs → zi.domain_name ≠ "" → zi.file_name ≠ "" →
      (alGet ((zs.foldl (procZone cr fs dp) st)).domain_to_zone zi.domain_name).isSome
        = true := by
  intro zs
  induction zs with
  | nil => intro st zi h; simp at h
  | cons zj zs ih =>
    intro st zi hmem hn hf
    simp only [List.foldl_cons]
    rcases List.mem_cons.mp hmem with he | hmem2
    · subst he
      refine d2zFold_isSome cr fs dp zi.domain_name zs _ ?_
      rw [procZone_d2z cr fs dp st zi hn hf]
      rw [alGet_alSet_self _ _ _]
      rfl
    · exact ih _ zi hmem2 hn hf

end GrootV1

namespace GrootV1

/-- C9: a missing zone file does not abort input parsing: parsing an absent
path yields the empty record list, a metadata entry with a valid name and a
missing file is still registered in domain_to_zone under its declared origin
with empty records, and every other valid entry is registered as well. -/
theorem missing_zone_file_initialization :
    (∀ (cr : String → List RR) (fs : FS) (path : String),
      alGet fs path = none → parse_zone_file cr fs path = []) ∧
    (∀ (cr : String → List RR) (fs : FS) (dp : String) (meta : Metadata) (zi : ZoneInfo),
      zi ∈ meta.zones → zi.domain_name ≠ "" → zi.file_name ≠ "" →
      (∀ zj ∈ meta.zones, zj.domain_name = zi.domain_name → zj = zi) →
      alGet fs (pathJoin dp zi.file_name) = none →
      alGet (input_parsing_and_configuration_initialization cr fs dp meta).domain_to_zone
          zi.domain_name = some ⟨zi.domain_name, []⟩) ∧
    (∀ (cr : String → List RR) (fs : FS) (dp : String) (meta : Metadata) (zi : ZoneInfo),
      zi ∈ meta.zones → zi.domain_name ≠ "" → zi.file_name ≠ "" →
      (alGet (input_parsing_and_configuration_initialization cr fs dp meta).domain_to_zone
          zi.domain_name).isSome = true) := by
  have hparse : ∀ (cr : String → List RR) (fs : FS) (path : String),
      alGet fs path = none → parse_zone_file cr fs path = [] := by
    intro cr fs path h
    unfold parse_zone_file
    rw [h]
  refine ⟨hparse, ?_, ?_⟩
  · intro cr fs dp meta zi hmem hn hf huniq hmiss
    show alGet ((meta.zones.foldl (procZone cr fs dp)
        ⟨meta.root_nameservers.foldl listInsert [], [], []⟩)).domain_to_zone
        zi.domain_name = some ⟨zi.domain_name, []⟩
    rw [d2zFold_registers cr fs dp meta.zones _ zi hmem hn hf huniq]
    rw [hparse cr fs _ hmiss]
  · intro cr fs dp meta zi hmem hn hf
    show (alGet ((meta.zones.foldl (procZone cr fs dp)
        ⟨meta.root_nameservers.foldl listInsert [], [], []⟩)).domain_to_zone
        zi.domain_name).isSome = true
    exact d2zFold_mem_isSome cr fs dp meta.zones _ zi hmem hn hf

/-- The C9 witness metadata: one entry whose file is missing, one whose file
is present. -/
def meta9 : Metadata :=
  { root_nameservers := ["ns1.example."]
    zones :=
      [ ⟨"missing.example.", "missing.txt", ["ns1.example."]⟩
      , ⟨"present.example.", "present.txt", ["ns1.example."]⟩ ] }

/-- The C9 witness file system: only present.txt exists. -/
def fs9 : FS := [("data/present.txt", "present-content")]

/-- The C9 witness text parser: any present content parses to one A record. -/
def cr9 : String → List RR := fun _ => [⟨"present.example.", 300, "A", "1.2.3.4"⟩]

/-- C9 witness: with one referenced file absent, initialization still registers
the zone with empty records under its origin and registers the other zone. -/
theorem missing_zone_file_initialization_witness :
    alGet fs9 (pathJoin "data" "missing.txt") = none ∧
    alGet (input_parsing_and_configuration_initialization cr9 fs9 "data" meta9).domain_to_zone
        "missing.example." = some ⟨"missing.example.", []⟩ ∧
    (alGet (input_parsing_and_configuration_initialization cr9 fs9 "data" meta9).domain_to_zone
        "present.example.").isSome = true := by
  refine ⟨by decide, ?_, ?_⟩
  · exact missing_zone_file_initialization.2.1 cr9 fs9 "data" meta9
      ⟨"missing.example.", "missing.txt", ["ns1.example."]⟩
      (by decide) (by decide) (by decide) (by decide) (by decide)
  · exact missing_zone_file_initialization.2.2 cr9 fs9 "data" meta9
      ⟨"present.example.", "present.txt", ["ns1.example."]⟩
      (by decide) (by decide) (by decide)

end GrootV1

namespace Baseline

/-- C1 witness: termination and the depth bound instantiated on the concrete
self-rewriting configuration. -/
theorem resolve_always_terminates_witness :
    (∃ fuel, (resolve cfgSelfCname querySelfCname fuel).isSome) ∧
    (∀ p ∈ igSelfCname.nodes, p.2.depth ≤ MAX_RESOLUTION_DEPTH) := by
  constructor
  · exact resolve_always_terminates.1 cfgSelfCname querySelfCname
  · intro p hp
    have hsome : (resolve cfgSelfCname querySelfCname 20).isSome = true := by decide
    rcases Option.isSome_iff_exists.mp hsome with ⟨g, hg⟩
    have hgi : igSelfCname = g := by
      unfold igSelfCname
      rw [hg]
      rfl
    exact resolve_always_terminates.2 cfgSelfCname querySelfCname 20 g hg p (hgi ▸ hp)

end Baseline
